import Mathlib

/-!
Verification of the canvas-mcp credential/session security core.

This file gives a shallow embedding, in Lean 4, of the security-relevant parts
of the `canvas-mcp` bridge server (`src/lib/db.ts`, `src/lib/mcp-transport.ts`,
`src/index.ts`) and proves the spec's testable properties against it.

Modelling conventions:
* Byte strings are `List Nat` with every element `< 256`.
* The AES-256 block cipher invoked through Node's `createCipheriv` /
  `createDecipheriv` with algorithm `"aes-256-gcm"` is an external primitive;
  it enters the model as an explicit parameter
  `aes : List Nat → List Bool → List Bool` (key bytes → 128-bit block →
  128-bit block).  The GCM mode of operation *around* the block cipher
  (CTR keystream, GHASH over GF(2^128), tag check) is implemented concretely
  below, following NIST SP 800-38D; 128-bit blocks are `List Bool` of length
  128, where index `i` holds the coefficient of `x^i` of the corresponding
  GF(2^128) polynomial (a fixed bijective re-indexing of the spec's bit order,
  which no theorem below depends on).
* The argon2id password hash invoked through `Bun.password` is likewise an
  external primitive and enters as explicit parameters `pwHash` / `pwVerify`,
  constrained only where a theorem needs its documented contract.
* The SQLite database is a record of lists (`DBState`); SQL queries are
  translated to the corresponding list operations, preserving evaluation
  order of the source.
-/

namespace CanvasMcp

/-! ## Bits and bytes -/

/-- Little-endian interpretation of a bit list as a natural number. -/
def bitsToNat : List Bool → Nat
  | [] => 0
  | b :: t => (if b then 1 else 0) + 2 * bitsToNat t

/-- The `w` low bits of `n`, least significant first. -/
def natBits (w n : Nat) : List Bool :=
  (List.range w).map n.testBit

/-- The 8 bits of a byte, least significant first. -/
def byteToBits (b : Nat) : List Bool :=
  natBits 8 b

/-- Flatten a byte string into its bit string. -/
def bytesToBits (bs : List Nat) : List Bool :=
  (bs.map byteToBits).flatten

/-- Regroup a bit string into bytes (8 bits each, little-endian per byte). -/
def bitsToBytes : List Bool → List Nat
  | b0 :: b1 :: b2 :: b3 :: b4 :: b5 :: b6 :: b7 :: t =>
      bitsToNat [b0, b1, b2, b3, b4, b5, b6, b7] :: bitsToBytes t
  | _ => []

/-- Pointwise xor of two bit lists (length of the shorter). -/
def xorBits (a b : List Bool) : List Bool :=
  List.zipWith xor a b

/-- The all-zero 128-bit block. -/
def zero128 : List Bool := List.replicate 128 false

/-- Flip the bit at position `k` (no-op when out of range). -/
def flipBit : List Bool → Nat → List Bool
  | [], _ => []
  | b :: t, 0 => (!b) :: t
  | b :: t, k + 1 => b :: flipBit t k

/-- Flip bit `k` of a byte string: bit `k % 8` of byte `k / 8`
(no-op when out of range). -/
def flipByteBit : List Nat → Nat → List Nat
  | [], _ => []
  | b :: t, k => if k < 8 then (b ^^^ (1 <<< k)) :: t else b :: flipByteBit t (k - 8)

/-! ### `modifyIdx` : apply a function at one position of a list -/

/-- Apply `g` to the element at index `n` (no-op when out of range). -/
def modifyIdx {α : Type} (g : α → α) : Nat → List α → List α
  | _, [] => []
  | 0, x :: t => g x :: t
  | n + 1, x :: t => x :: modifyIdx g n t

/-- One-hot bit string: all `false` except position `k`. -/
def oneHot (n k : Nat) : List Bool := flipBit (List.replicate n false) k

/-! ## The GHASH field GF(2^128)

`createCipheriv(.., "aes-256-gcm", ..)` delegates to the GCM mode of
NIST SP 800-38D.  We implement its GHASH component concretely.  A 128-bit
block is a `List Bool` of length 128; position `i` carries the coefficient
of `x^i` of the residue class modulo the GCM polynomial
`x^128 + x^7 + x^2 + x + 1`. -/

/-- Coefficients (below degree 128) of the GCM reduction polynomial:
`x^7 + x^2 + x + 1`. -/
def rPoly : List Bool :=
  (List.range 128).map (fun i => decide (i = 0 ∨ i = 1 ∨ i = 2 ∨ i = 7))

/-- Multiply a residue class by `x` and reduce (shift-and-reduce step). -/
def xmul (v : List Bool) : List Bool :=
  let sh := false :: v.take 127
  if v.getD 127 false then xorBits sh rPoly else sh

/-- Shift-and-add product accumulator: iterates over the bits of the second
factor while repeatedly `xmul`-ing the first. -/
def gmulAux : List Bool → List Bool → List Bool → List Bool
  | _, [], acc => acc
  | a, b :: bt, acc => gmulAux (xmul a) bt (if b then xorBits acc a else acc)

/-- Product in GF(2^128) (carry-less multiplication mod the GCM polynomial). -/
def gmul (a b : List Bool) : List Bool := gmulAux a b zero128

/-- GHASH compression: `Y ← (Y ⊕ X_i) · H` over the block sequence. -/
def ghashAux (H : List Bool) : List (List Bool) → List Bool → List Bool
  | [], y => y
  | X :: bs, y => ghashAux H bs (gmul (xorBits y X) H)

/-- `n`-fold multiplication by `H`. -/
def iterMulH (H : List Bool) : Nat → List Bool → List Bool
  | 0, d => d
  | n + 1, d => iterMulH H n (gmul d H)

/-- The multiplicative identity of the GHASH field (the monomial `x^0`). -/
def oneBlock : List Bool := true :: List.replicate 127 false

/-! ## Hex encoding, the `iv:tag:ct` blob format, and CTR keystream -/

/-- Error taxonomy of the spec (section 7), mapped onto the throw sites of
the source: `configurationError` = `createCipheriv`/`createDecipheriv`
rejecting a key that is not 32 bytes; `integrityError` = `decipher.final`
failing authentication; `malformedBlob` = the other `TypeError` throw sites
(missing segment, empty IV, wrong tag length). -/
inductive CryptoErr where
  | configurationError
  | integrityError
  | malformedBlob
deriving DecidableEq, Repr

def hexDigitChars : List Char := "0123456789abcdef".toList

def hexDigit (n : Nat) : Char := hexDigitChars.getD n 'f'

def hexVal (c : Char) : Option Nat :=
  match hexDigitChars.findIdx? (fun d => d = c) with
  | some i => some i
  | none =>
      match (['A', 'B', 'C', 'D', 'E', 'F'] : List Char).findIdx? (fun d => d = c) with
      | some i => some (10 + i)
      | none => none

def hexEncode : List Nat → List Char
  | [] => []
  | b :: t => hexDigit (b / 16) :: hexDigit (b % 16) :: hexEncode t

/-- Lenient hex decoding, as `Buffer.from(str, "hex")`: consumes pairs and
stops (truncating) at the first invalid pair or odd tail. -/
def hexDecode : List Char → List Nat
  | c1 :: c2 :: rest =>
      (match hexVal c1, hexVal c2 with
        | some a, some b => (16 * a + b) :: hexDecode rest
        | _, _ => [])
  | _ => []

/-- `String.prototype.split(sep)` on a character list. -/
def splitOnChar (sep : Char) : List Char → List (List Char)
  | [] => [[]]
  | c :: rest =>
      let r := splitOnChar sep rest
      if c = sep then [] :: r else (c :: r.headD []) :: r.tail

/-- Xor a byte list against keystream bytes `ks off, ks (off+1), …`. -/
def xorKeystream (ks : Nat → Nat) : Nat → List Nat → List Nat
  | _, [] => []
  | off, b :: t => (b ^^^ ks off) :: xorKeystream ks (off + 1) t

/-- Zero-pad a partial block up to 128 bits. -/
def padBlock (bits : List Bool) : List Bool :=
  bits ++ List.replicate (128 - bits.length) false

/-- Split a byte string into zero-padded 128-bit blocks; `fuel` bounds the
recursion and is instantiated with the list length. -/
def bytesToBlocksAux : Nat → List Nat → List (List Bool)
  | _, [] => []
  | 0, rest => [padBlock (bytesToBits rest)]
  | f + 1, rest => padBlock (bytesToBits (rest.take 16)) :: bytesToBlocksAux f (rest.drop 16)

def bytesToBlocks (bs : List Nat) : List (List Bool) := bytesToBlocksAux bs.length bs

/-! ## AES-256-GCM as composed by `createCipheriv` / `createDecipheriv` -/

/-- 64-bit length field of the final GHASH block. -/
def len64 (n : Nat) : List Bool := natBits 64 n

/-- Final GHASH block: `[len(AAD)]₆₄ ∥ [len(C)]₆₄` (lengths in bits). -/
def lenBlock (aadBits ctBits : Nat) : List Bool := len64 aadBits ++ len64 ctBits

/-- GHASH of a byte string with empty AAD: hash the padded data blocks
followed by the length block. -/
def gcmGhash (H : List Bool) (data : List Nat) : List Bool :=
  ghashAux H (bytesToBlocks data ++ [lenBlock 0 (8 * data.length)]) zero128

/-- Pre-counter block `J0` for an IV that is not 96 bits long (the source
uses 16 random bytes): `J0 = GHASH_H(IV ∥ pad ∥ [0]₆₄ ∥ [len(IV)]₆₄)`. -/
def gcmJ0 (H : List Bool) (iv : List Nat) : List Bool := gcmGhash H iv

/-- `inc32`-derived counter block `i`. -/
def ctrBlock (j0 : List Bool) (i : Nat) : List Bool :=
  j0.take 96 ++ natBits 32 ((bitsToNat (j0.drop 96) + i) % 2 ^ 32)

/-- Byte `i` of the CTR keystream (counter blocks start at `inc32(J0)`). -/
def ksByte (E : List Bool → List Bool) (j0 : List Bool) (i : Nat) : Nat :=
  (bitsToBytes (E (ctrBlock j0 (1 + i / 16)))).getD (i % 16) 0

/-- CTR encryption/decryption of the payload bytes. -/
def gcmCipherBytes (E : List Bool → List Bool) (j0 : List Bool) (data : List Nat) :
    List Nat :=
  xorKeystream (ksByte E j0) 0 data

/-- The 16-byte authentication tag: `E(J0) ⊕ GHASH_H(C)`. -/
def gcmTagBytes (E : List Bool → List Bool) (H j0 : List Bool) (ct : List Nat) :
    List Nat :=
  bitsToBytes (xorBits (E j0) (gcmGhash H ct))

/-- The blob layout emitted by `encrypt`: `ivHex:tagHex:ctHex`. -/
def mkBlob (iv tag ct : List Nat) : List Char :=
  hexEncode iv ++ (':' :: (hexEncode tag ++ (':' :: hexEncode ct)))

/-- `encrypt` of `src/lib/db.ts` (lines 440–451): AES-256-GCM under
`ENCRYPTION_KEY` with a fresh 16-byte IV, returning `ivHex:tagHex:ctHex`.
`createCipheriv` throws when the key does not decode to exactly 32 bytes
(`configurationError`) or when the IV is empty. -/
def encrypt (aes : List Nat → List Bool → List Bool) (key : List Nat) (iv : List Nat)
    (text : List Nat) : Except CryptoErr (List Char) :=
  if key.length ≠ 32 then .error .configurationError
  else if iv.length = 0 then .error .malformedBlob
  else
    let E := aes key
    let H := E zero128
    let j0 := gcmJ0 H iv
    let ct := gcmCipherBytes E j0 text
    .ok (mkBlob iv (gcmTagBytes E H j0 ct) ct)

/-- `decrypt` of `src/lib/db.ts` (lines 453–466): split the blob on `":"`,
hex-decode the segments, rebuild the GCM state and check the tag;
`decipher.final()` throws (`integrityError`) when the recomputed tag does
not equal the stored one, and only then is any plaintext returned. -/
def decrypt (aes : List Nat → List Bool → List Bool) (key : List Nat)
    (blob : List Char) : Except CryptoErr (List Nat) :=
  match splitOnChar ':' blob with
  | ivHex :: tagHex :: ctHex :: _ =>
      let iv := hexDecode ivHex
      let tag := hexDecode tagHex
      let ct := hexDecode ctHex
      if key.length ≠ 32 then .error .configurationError
      else if iv.length = 0 then .error .malformedBlob
      else if tag.length ≠ 16 then .error .malformedBlob
      else
        let E := aes key
        let H := E zero128
        let j0 := gcmJ0 H iv
        if gcmTagBytes E H j0 ct = tag then .ok (gcmCipherBytes E j0 ct)
        else .error .integrityError
  | _ => .error .malformedBlob

/-! ## Key generation, hashing parameters, and startup key decoding -/

def b64urlChars : List Char :=
  "ABCDEFGHIJKLMNOPQRSTUVWXYZabcdefghijklmnopqrstuvwxyz0123456789-_".toList

def b64urlChar (n : Nat) : Char := b64urlChars.getD n 'A'

/-- `Buffer.toString("base64url")`: no padding. -/
def base64urlEncode : List Nat → List Char
  | [] => []
  | [b1] => [b64urlChar (b1 / 4), b64urlChar (b1 % 4 * 16)]
  | [b1, b2] => [b64urlChar (b1 / 4), b64urlChar (b1 % 4 * 16 + b2 / 16),
      b64urlChar (b2 % 16 * 4)]
  | b1 :: b2 :: b3 :: rest =>
      b64urlChar (b1 / 4) :: b64urlChar (b1 % 4 * 16 + b2 / 16)
        :: b64urlChar (b2 % 16 * 4 + b3 / 64) :: b64urlChar (b3 % 64)
        :: base64urlEncode rest

/-- `generateApiKey` (db.ts lines 469–471): marker prefix `cmcp_` followed
by the base64url encoding of 32 random bytes. -/
def generateApiKey (randBytes : List Nat) : String :=
  "cmcp_" ++ String.mk (base64urlEncode randBytes)

def b64Chars : List Char :=
  "ABCDEFGHIJKLMNOPQRSTUVWXYZabcdefghijklmnopqrstuvwxyz0123456789+/".toList

def b64Val (c : Char) : Option Nat :=
  match b64Chars.findIdx? (fun d => d = c) with
  | some i => some i
  | none => if c = '-' then some 62 else if c = '_' then some 63 else none

/-- Regroup 6-bit values into bytes, truncating an incomplete final
quantum, as Node's base64 decoder does. -/
def b64Quanta : List Nat → List Nat
  | a :: b :: c :: d :: rest =>
      (a * 4 + b / 16) :: (b % 16 * 16 + c / 4) :: (c % 4 * 64 + d) :: b64Quanta rest
  | [a, b] => [a * 4 + b / 16]
  | [a, b, c] => [a * 4 + b / 16, b % 16 * 16 + c / 4]
  | _ => []

/-- `Buffer.from(str, "base64")`: skip characters outside the alphabet,
then decode; never throws. -/
def base64DecodeLenient (cs : List Char) : List Nat :=
  b64Quanta (cs.filterMap b64Val)

/-- Module initialization, db.ts line 437:
`const ENCRYPTION_KEY = Buffer.from(process.env.ENCRYPTION_KEY || "", "base64")`.
This is total — the key material is decoded without any validation at
startup; a missing or malformed variable simply yields a buffer that is not
32 bytes long. -/
def encryptionKeyInit (env : Option String) : List Nat :=
  base64DecodeLenient
    (match env with
      | none => "".toList
      | some s => if s = "" then "".toList else s.toList)

/-- The options record the source passes to `Bun.password.hash`
(db.ts lines 474–480). -/
structure Argon2Params where
  algorithm : String
  memoryCost : Nat
  timeCost : Nat
deriving DecidableEq, Repr

def hashApiKeyParams : Argon2Params :=
  { algorithm := "argon2id", memoryCost := 19456, timeCost := 2 }

/-- `hashApiKey` (db.ts lines 474–480): argon2id with `memoryCost` 19456 KiB
and `timeCost` 2; the hash primitive itself is `Bun.password.hash`, an
external collaborator passed in as `pwHash`. -/
def hashApiKey (pwHash : Argon2Params → String → String) (apiKey : String) : String :=
  pwHash hashApiKeyParams apiKey

/-- `verifyApiKey` (db.ts lines 483–485): delegates to `Bun.password.verify`. -/
def verifyApiKey (pwVerify : String → String → Bool) (apiKey hashed : String) : Bool :=
  pwVerify apiKey hashed

/-! ## The credential store (`db.ts`), embedded as list-valued state -/

/-- A row of the `users` table (second schema: every credential column
nullable, for magic-link pre-activation accounts). -/
structure User where
  id : Nat
  canvas_user_id : Option String
  canvas_domain : Option String
  email : Option String
  canvas_access_token : Option (List Char)
  canvas_refresh_token : Option (List Char)
  mcp_api_key : Option String
  created_at : Nat
  last_used_at : Option Nat
  token_expires_at : Option Nat
deriving DecidableEq, Repr

structure Session where
  id : String
  user_id : Option Nat
  canvas_domain : String
  state : Option String
  api_key : Option String
  created_at : Nat
  expires_at : Nat
deriving DecidableEq, Repr

structure MagicLink where
  id : Nat
  email : String
  token : String
  expires_at : Nat
  used : Nat
  created_at : Nat
deriving DecidableEq, Repr

structure OAuthToken where
  token : String
  user_id : Nat
  scope : String
  expires_at : Nat
  created_at : Nat
deriving DecidableEq, Repr

structure UsageLog where
  id : Nat
  user_id : Nat
  endpoint : String
  timestamp : Nat
deriving DecidableEq, Repr

/-- One entry of the in-memory verification cache (db.ts lines 340–346). -/
structure ApiKeyCacheEntry where
  userId : Nat
  verifiedAt : Nat
deriving DecidableEq, Repr

structure DBState where
  users : List User
  sessions : List Session
  magicLinks : List MagicLink
  oauthTokens : List OAuthToken
  usageLogs : List UsageLog
  apiKeyCache : List (String × ApiKeyCacheEntry)
deriving DecidableEq, Repr

/-- Default cache TTL (db.ts line 346): `API_KEY_CACHE_TTL || "900000"`. -/
def CACHE_TTL : Nat := 900000

def cacheGet (c : List (String × ApiKeyCacheEntry)) (k : String) :
    Option ApiKeyCacheEntry :=
  (c.find? (fun p => decide (p.1 = k))).map (fun p => p.2)

def cacheSet (c : List (String × ApiKeyCacheEntry)) (k : String)
    (e : ApiKeyCacheEntry) : List (String × ApiKeyCacheEntry) :=
  (k, e) :: c.filter (fun p => decide (p.1 ≠ k))

def cacheDelete (c : List (String × ApiKeyCacheEntry)) (k : String) :
    List (String × ApiKeyCacheEntry) :=
  c.filter (fun p => decide (p.1 ≠ k))

def findUserById (us : List User) (uid : Nat) : Option User :=
  us.find? (fun u => decide (u.id = uid))

/-- The slow-path loop of `getUserByApiKey`: iterate over the users whose
`mcp_api_key` is non-null (the SQL filter) verifying each candidate hash;
additionally returns the list of hashes actually verified, as an
observation of how much slow hashing ran. -/
def scanVerify (verifyFn : String → String → Bool) (apiKey : String) :
    List User → Option User × List String
  | [] => (none, [])
  | u :: rest =>
      match u.mcp_api_key with
      | none => scanVerify verifyFn apiKey rest
      | some h =>
          if verifyFn apiKey h then (some u, [h])
          else
            let r := scanVerify verifyFn apiKey rest
            (r.1, h :: r.2)

/-- `getUserByApiKey` (db.ts lines 602–636): cache fast path, slow
verify-scan fallback, re-caching on success.  The third component records
the hashes against which the slow verification ran (`[]` on the cache fast
path). -/
def getUserByApiKey (verifyFn : String → String → Bool) (cacheTtl : Nat) (st : DBState)
    (now : Nat) (apiKey : String) : Option User × DBState × List String :=
  let slow : List (String × ApiKeyCacheEntry) → Option User × DBState × List String :=
    fun cache0 =>
      let r := scanVerify verifyFn apiKey st.users
      match r.1 with
      | some u => (some u, { st with apiKeyCache := cacheSet cache0 apiKey ⟨u.id, now⟩ }, r.2)
      | none => (none, { st with apiKeyCache := cache0 }, r.2)
  match cacheGet st.apiKeyCache apiKey with
  | some entry =>
      if now - entry.verifiedAt < cacheTtl then
        match findUserById st.users entry.userId with
        | some user => (some user, st, [])
        | none => slow (cacheDelete st.apiKeyCache apiKey)
      else slow st.apiKeyCache
  | none => slow st.apiKeyCache

/-- `getUserByOAuthToken` (db.ts lines 884–896): direct-equality token
lookup, rejecting rows whose `expires_at` is not strictly in the future. -/
def getUserByOAuthToken (st : DBState) (now : Nat) (token : String) : Option User :=
  match st.oauthTokens.find? (fun tk => decide (tk.token = token ∧ now < tk.expires_at)) with
  | none => none
  | some tk => findUserById st.users tk.user_id

/-- `regenerateApiKey` (db.ts lines 684–701): evict every cache entry
resolving to the user, then replace the stored hash; the fresh plaintext
key (`generateApiKey()` output) is an explicit argument. -/
def regenerateApiKey (hashFn : String → String) (st : DBState) (userId : Nat)
    (newKey : String) : String × DBState :=
  let cache' := st.apiKeyCache.filter (fun p => decide (p.2.userId ≠ userId))
  let hashed := hashFn newKey
  let users' := st.users.map
    (fun u => if u.id = userId then { u with mcp_api_key := some hashed } else u)
  (newKey, { st with users := users', apiKeyCache := cache' })

/-- `getSession` (db.ts lines 730–734): row with matching id whose
`expires_at` is in the future. -/
def getSession (st : DBState) (sessionId : String) (now : Nat) : Option Session :=
  st.sessions.find? (fun s => decide (s.id = sessionId ∧ now < s.expires_at))

/-- `clearApiKeyFromSession` (db.ts lines 762–764). -/
def clearApiKeyFromSession (st : DBState) (sessionId : String) : DBState :=
  let sessions' := st.sessions.map
    (fun s => if s.id = sessionId then { s with api_key := none } else s)
  { st with sessions := sessions' }

/-- `getMagicLink` (db.ts lines 781–787): token match, unexpired, unused. -/
def getMagicLink (st : DBState) (now : Nat) (token : String) : Option MagicLink :=
  st.magicLinks.find?
    (fun m => decide (m.token = token ∧ now < m.expires_at ∧ m.used = 0))

/-- `markMagicLinkUsed` (db.ts lines 789–791): set `used = 1`, keep the row. -/
def markMagicLinkUsed (st : DBState) (token : String) : DBState :=
  let magicLinks' := st.magicLinks.map
    (fun m => if m.token = token then { m with used := 1 } else m)
  { st with magicLinks := magicLinks' }

/-- `createOAuthToken` (db.ts lines 868–882): reuses `generateApiKey` for
the token value; default `expiresIn` is 86400000 ms. -/
def createOAuthToken (st : DBState) (now : Nat) (userId : Nat) (scope : String)
    (randBytes : List Nat) (expiresIn : Nat) : String × DBState :=
  let token := generateApiKey randBytes
  let row : OAuthToken :=
    { token := token
      user_id := userId
      scope := scope
      expires_at := now + expiresIn
      created_at := now }
  (token, { st with oauthTokens := st.oauthTokens ++ [row] })

def getUsageStats (st : DBState) (userId : Nat) : List UsageLog :=
  st.usageLogs.filter (fun l => decide (l.user_id = userId))

def getUsageStatsSince (st : DBState) (userId : Nat) (since : Nat) : List UsageLog :=
  st.usageLogs.filter (fun l => decide (l.user_id = userId ∧ since ≤ l.timestamp))

/-! ## The authentication gate (`mcp-transport.ts`) and `/api/user/me` -/

inductive McpResponse where
  | errorResp (status : Nat) (code : Int) (message : String)
      (wwwAuthenticate : Option String)
  | dispatched (userId : Nat)
deriving DecidableEq, Repr

def McpResponse.isDispatched : McpResponse → Bool
  | .dispatched _ => true
  | _ => false

/-- The `WWW-Authenticate` discovery hint built in mcp-transport.ts
lines 24–29. -/
def wwwAuthenticateHint (baseUrl : String) : String :=
  "Bearer resource_metadata=\"" ++ baseUrl
    ++ "/.well-known/oauth-protected-resource\", scope=\"canvas:read canvas:courses:read\""

/-- `handleMcpRequest` (mcp-transport.ts lines 7–56): no bearer token →
401 with the discovery hint; otherwise resolve as issued API key first,
then as OAuth access token; both missing → 401; a resolved user reaches
tool dispatch (`createMcpServer(user.id)`). -/
def handleMcpRequest (verifyFn : String → String → Bool) (cacheTtl : Nat)
    (baseUrl : String) (st : DBState) (now : Nat) (apiToken : Option String) :
    McpResponse × DBState :=
  match apiToken with
  | none =>
      (.errorResp 401 (-32001) "Missing API token. Please authenticate first."
        (some (wwwAuthenticateHint baseUrl)), st)
  | some token =>
      let r := getUserByApiKey verifyFn cacheTtl st now token
      let user := match r.1 with
        | some u => some u
        | none => getUserByOAuthToken r.2.1 now token
      match user with
      | none => (.errorResp 401 (-32001) "Invalid or expired token" none, r.2.1)
      | some u => (.dispatched u.id, r.2.1)

inductive MeResponse where
  | unauthorized
  | notFound
  | ok (canvas_domain : Option String) (email : Option String) (created_at : Nat)
      (last_used_at : Option Nat) (api_key : Option String)
      (total_requests : Nat) (requests_24h : Nat) (requests_7d : Nat)
deriving DecidableEq, Repr

def MeResponse.apiKeyField : MeResponse → Option String
  | .ok _ _ _ _ k _ _ _ => k
  | _ => none

/-- JavaScript truthiness of a nullable string (`null` and `""` falsy). -/
def jsTruthyStr : Option String → Bool
  | some s => decide (s ≠ "")
  | none => false

/-- GET `/api/user/me` (index.ts lines 149–196): session-cookie auth, user
row lookup, usage stats, transient `api_key` returned once and cleared from
the session (`session.api_key || null`, then `clearApiKeyFromSession`). -/
def userMeGet (st : DBState) (now : Nat) (sessionId : Option String) :
    MeResponse × DBState :=
  match sessionId with
  | none => (.unauthorized, st)
  | some sid =>
      match getSession st sid now with
      | none => (.unauthorized, st)
      | some s =>
          match s.user_id with
          | none => (.unauthorized, st)
          | some uid =>
              if uid = 0 then (.unauthorized, st)
              else
                match findUserById st.users uid with
                | none => (.notFound, st)
                | some u =>
                    let apiKey := if jsTruthyStr s.api_key then s.api_key else none
                    let st' := if jsTruthyStr s.api_key
                      then clearApiKeyFromSession st s.id else st
                    (.ok u.canvas_domain u.email u.created_at u.last_used_at apiKey
                        (getUsageStats st u.id).length
                        (getUsageStatsSince st u.id (now - 24 * 60 * 60 * 1000)).length
                        (getUsageStatsSince st u.id (now - 7 * 24 * 60 * 60 * 1000)).length,
                      st')

structure NewUserData where
  canvas_user_id : String
  canvas_domain : String
  email : Option String
  canvas_access_token : List Nat
  canvas_refresh_token : Option (List Nat)
  token_expires_at : Option Nat
deriving DecidableEq, Repr

/-- `createOrUpdateUser` (db.ts lines 505–600).  The provider tokens are
encrypted *before* any row is read or written; a failing `encrypt`
therefore aborts the operation with the state untouched.  Fresh random
material (the two IVs, the generated API-key bytes) and the autoincrement
id for an insert are explicit arguments. -/
def createOrUpdateUser (aes : List Nat → List Bool → List Bool) (key : List Nat)
    (hashFn : String → String) (st : DBState) (now : Nat) (data : NewUserData)
    (iv1 iv2 : List Nat) (keyRand : List Nat) (nextId : Nat) :
    Except CryptoErr (User × Option String × Bool × DBState) := do
  let encryptedToken ← encrypt aes key iv1 data.canvas_access_token
  let encryptedRefreshToken ← match data.canvas_refresh_token with
    | some rt => Except.map some (encrypt aes key iv2 rt)
    | none => pure none
  let byCanvasId := st.users.find?
    (fun u => decide (u.canvas_user_id = some data.canvas_user_id))
  let existing := match byCanvasId with
    | some u => some u
    | none =>
        match data.email with
        | some em => st.users.find?
            (fun u => decide (u.email = some em ∧ u.canvas_user_id = none))
        | none => none
  match existing with
  | some ex =>
      let pair : Option String × String :=
        match ex.mcp_api_key with
        | some h => (none, h)
        | none => (some (generateApiKey keyRand), hashFn (generateApiKey keyRand))
      let updated : User :=
        { ex with
          canvas_user_id := some data.canvas_user_id
          canvas_domain := some data.canvas_domain
          canvas_access_token := some encryptedToken
          canvas_refresh_token := encryptedRefreshToken
          token_expires_at := data.token_expires_at
          last_used_at := some now
          mcp_api_key := some pair.2 }
      let users' := st.users.map (fun u => if u.id = ex.id then updated else u)
      return (updated, pair.1, pair.1.isSome, { st with users := users' })
  | none =>
      let apiKey := generateApiKey keyRand
      let newUser : User :=
        { id := nextId
          canvas_user_id := some data.canvas_user_id
          canvas_domain := some data.canvas_domain
          email := data.email
          canvas_access_token := some encryptedToken
          canvas_refresh_token := encryptedRefreshToken
          mcp_api_key := some (hashFn apiKey)
          created_at := now
          last_used_at := none
          token_expires_at := data.token_expires_at }
      return (newUser, some apiKey, true, { st with users := st.users ++ [newUser] })

/-! ## Concrete instances used by the witnesses -/

/-- A degenerate but admissible block cipher used to instantiate the
abstract AES parameter in witnesses: every block encrypts to the field
element 1, so the GHASH subkey is invertible. -/
def wAes : List Nat → List Bool → List Bool := fun _ _ => oneBlock

def wKey : List Nat := List.replicate 32 0

def wIv1 : List Nat := List.replicate 16 0

def wIv2 : List Nat := 1 :: List.replicate 15 0

def wText : List Nat := [104, 105]

def wBlob1 : List Char := (encrypt wAes wKey wIv1 wText).toOption.getD []

/-- The ciphertext-bytes component of a blob produced by `encrypt`. -/
def gcmCtOf (aes : List Nat → List Bool → List Bool) (key iv text : List Nat) :
    List Nat :=
  gcmCipherBytes (aes key) (gcmJ0 (aes key zero128) iv) text

/-- The tag-bytes component of a blob produced by `encrypt`. -/
def gcmTagOf (aes : List Nat → List Bool → List Bool) (key iv text : List Nat) :
    List Nat :=
  gcmTagBytes (aes key) (aes key zero128) (gcmJ0 (aes key zero128) iv)
    (gcmCtOf aes key iv text)

def wDb0 : DBState :=
  { users := [], sessions := [], magicLinks := [], oauthTokens := [],
    usageLogs := [], apiKeyCache := [] }

def wUserData : NewUserData :=
  { canvas_user_id := "1", canvas_domain := "x.edu", email := some "a@x.edu",
    canvas_access_token := [116, 111, 107], canvas_refresh_token := none,
    token_expires_at := none }

def wHash : Argon2Params → String → String := fun _ s => s

def wVerify : String → String → Bool := fun s h => h == s

def wMl : MagicLink :=
  { id := 1, email := "a@x.edu", token := "tok", expires_at := 100, used := 0,
    created_at := 0 }

def wDbMl : DBState := { wDb0 with magicLinks := [wMl] }

def wSess : Session :=
  { id := "s1", user_id := some 1, canvas_domain := "x.edu", state := some "",
    api_key := some "cmcp_k", created_at := 0, expires_at := 1000 }

def wUser7 : User :=
  { id := 1, canvas_user_id := some "1", canvas_domain := some "x.edu",
    email := some "a@x.edu", canvas_access_token := some [], canvas_refresh_token := none,
    mcp_api_key := some "h1", created_at := 0, last_used_at := none,
    token_expires_at := none }

def wDb7 : DBState := { wDb0 with users := [wUser7], sessions := [wSess] }

def wUser4 : User :=
  { id := 1, canvas_user_id := some "1", canvas_domain := some "x.edu",
    email := some "a@x.edu", canvas_access_token := some [], canvas_refresh_token := none,
    mcp_api_key := some "h1", created_at := 0, last_used_at := none,
    token_expires_at := none }

def wDb4 : DBState := { wDb0 with users := [wUser4], apiKeyCache := [("k1", ⟨1, 0⟩)] }

def wVerify4 : String → String → Bool := fun k h => decide (k = "k1" ∧ h = "h1")

def wUser5b : User := { wUser4 with id := 2, mcp_api_key := some "h2" }

def wDb5 : DBState :=
  { wDb0 with users := [wUser4, wUser5b], apiKeyCache := [("ok", ⟨1, 0⟩)] }

def wHashFn5 : String → String := fun s => "H" ++ s

def wVerify5 : String → String → Bool := fun k h => h == "H" ++ k

/-! ## Theorems -/

theorem bitsToNat_lt (l : List Bool) : bitsToNat l < 2 ^ l.length := by
  induction l with
  | nil => simp [bitsToNat]
  | cons b t ih =>
      simp only [bitsToNat, List.length_cons, pow_succ]
      cases b <;> simp <;> omega

theorem bitsToNat_testBit (l : List Bool) (i : Nat) :
    (bitsToNat l).testBit i = l.getD i false := by
  induction l generalizing i with
  | nil => simp [bitsToNat]
  | cons b t ih =>
      cases i with
      | zero =>
          simp only [bitsToNat, List.getD_cons_zero, Nat.testBit_zero]
          cases b <;> simp <;> omega
      | succ i =>
          simp only [bitsToNat, List.getD_cons_succ, Nat.testBit_add_one, ← ih i]
          congr 1
          cases b <;> simp <;> omega

theorem length_natBits (w n : Nat) : (natBits w n).length = w := by
  simp [natBits]

theorem length_byteToBits (b : Nat) : (byteToBits b).length = 8 := by
  simp [byteToBits, natBits]

theorem length_bytesToBits (bs : List Nat) : (bytesToBits bs).length = 8 * bs.length := by
  induction bs with
  | nil => rfl
  | cons b t ih =>
      simp only [bytesToBits, List.map_cons, List.flatten_cons, List.length_append,
        length_byteToBits, List.length_cons] at *
      omega

theorem length_xorBits (a b : List Bool) :
    (xorBits a b).length = min a.length b.length := by
  simp [xorBits]

theorem length_zero128 : zero128.length = 128 := by simp [zero128]

theorem length_flipBit (l : List Bool) (k : Nat) : (flipBit l k).length = l.length := by
  induction l generalizing k with
  | nil => rfl
  | cons b t ih => cases k <;> simp [flipBit, ih]

theorem length_flipByteBit (l : List Nat) (k : Nat) :
    (flipByteBit l k).length = l.length := by
  induction l generalizing k with
  | nil => rfl
  | cons b t ih => simp only [flipByteBit]; split <;> simp [ih]

theorem length_bitsToBytes : ∀ l : List Bool, (bitsToBytes l).length = l.length / 8
  | b0 :: b1 :: b2 :: b3 :: b4 :: b5 :: b6 :: b7 :: t => by
      have ih := length_bitsToBytes t
      simp only [bitsToBytes, List.length_cons, ih]
      omega
  | [] => by simp [bitsToBytes]
  | [_] => by simp [bitsToBytes]
  | [_, _] => by simp [bitsToBytes]
  | [_, _, _] => by simp [bitsToBytes]
  | [_, _, _, _] => by simp [bitsToBytes]
  | [_, _, _, _, _] => by simp [bitsToBytes]
  | [_, _, _, _, _, _] => by simp [bitsToBytes]
  | [_, _, _, _, _, _, _] => by simp [bitsToBytes]

theorem length_modifyIdx {α : Type} (g : α → α) (n : Nat) (l : List α) :
    (modifyIdx g n l).length = l.length := by
  induction l generalizing n with
  | nil => cases n <;> rfl
  | cons x t ih => cases n <;> simp [modifyIdx, ih]

theorem mem_modifyIdx {α : Type} (g : α → α) (n : Nat) (l : List α) (x : α)
    (h : x ∈ modifyIdx g n l) : x ∈ l ∨ ∃ y ∈ l, x = g y := by
  induction l generalizing n with
  | nil => simp [modifyIdx] at h
  | cons z t ih =>
      cases n with
      | zero =>
          rcases List.mem_cons.mp h with h1 | h1
          · exact Or.inr ⟨z, List.mem_cons_self z t, h1⟩
          · exact Or.inl (List.mem_cons_of_mem z h1)
      | succ n =>
          rcases List.mem_cons.mp h with h1 | h1
          · exact Or.inl (h1 ▸ List.mem_cons_self z t)
          · rcases ih n h1 with h2 | ⟨y, hy, hxy⟩
            · exact Or.inl (List.mem_cons_of_mem z h2)
            · exact Or.inr ⟨y, List.mem_cons_of_mem z hy, hxy⟩

/-! ### Algebra of `xorBits` and `flipBit` -/

theorem xorBits_comm (a b : List Bool) : xorBits a b = xorBits b a := by
  induction a generalizing b with
  | nil => cases b <;> rfl
  | cons x t ih =>
      cases b with
      | nil => rfl
      | cons y u => simp [xorBits, List.zipWith] at *; exact ⟨Bool.xor_comm x y, ih u⟩

theorem xorBits_assoc (a b c : List Bool) :
    xorBits (xorBits a b) c = xorBits a (xorBits b c) := by
  induction a generalizing b c with
  | nil => rfl
  | cons x t ih =>
      cases b with
      | nil => rfl
      | cons y u =>
          cases c with
          | nil => rfl
          | cons z v =>
              simp only [xorBits, List.zipWith] at *
              exact List.cons_eq_cons.mpr ⟨Bool.xor_assoc x y z, ih u v⟩

theorem xorBits_self (a : List Bool) : xorBits a a = List.replicate a.length false := by
  induction a with
  | nil => rfl
  | cons x t ih => simpa [xorBits, List.zipWith, List.replicate] using ih

theorem xorBits_zero_left (a : List Bool) :
    xorBits (List.replicate a.length false) a = a := by
  induction a with
  | nil => rfl
  | cons x t ih => simp [xorBits, List.zipWith, List.replicate] at *; exact ih

theorem xorBits_zero_right (a : List Bool) :
    xorBits a (List.replicate a.length false) = a := by
  rw [xorBits_comm]; exact xorBits_zero_left a

theorem xorBits_left_comm (a b c : List Bool) :
    xorBits a (xorBits b c) = xorBits b (xorBits a c) := by
  rw [← xorBits_assoc, xorBits_comm a b, xorBits_assoc]

theorem xorBits_cancel_left (a b c : List Bool) (hab : a.length = b.length)
    (hac : a.length = c.length) (h : xorBits a b = xorBits a c) : b = c := by
  induction a generalizing b c with
  | nil =>
      cases b <;> cases c <;> simp_all
  | cons x t ih =>
      cases b with
      | nil => simp at hab
      | cons y u =>
          cases c with
          | nil => simp at hac
          | cons z v =>
              simp only [xorBits, List.zipWith, List.cons.injEq] at h
              obtain ⟨h1, h2⟩ := h
              refine List.cons_eq_cons.mpr ⟨?_, ?_⟩
              · cases x <;> simpa using h1
              · exact ih u v (by simpa using hab) (by simpa using hac) h2

theorem flipBit_eq_xorBits (l : List Bool) (k : Nat) :
    flipBit l k = xorBits l (oneHot l.length k) := by
  induction l generalizing k with
  | nil => rfl
  | cons b t ih =>
      cases k with
      | zero =>
          simp only [oneHot, List.length_cons, List.replicate_succ, flipBit, xorBits,
            List.zipWith_cons_cons, Bool.not_false, Bool.xor_true]
          exact List.cons_eq_cons.mpr ⟨rfl, (xorBits_zero_right t).symm⟩
      | succ k =>
          simp only [oneHot, List.length_cons, List.replicate_succ, flipBit, xorBits,
            List.zipWith_cons_cons, Bool.xor_false]
          exact List.cons_eq_cons.mpr ⟨rfl, ih k⟩

theorem ext_getD_bool (a b : List Bool) (hlen : a.length = b.length)
    (h : ∀ i, a.getD i false = b.getD i false) : a = b := by
  induction a generalizing b with
  | nil =>
      cases b with
      | nil => rfl
      | cons y u => simp at hlen
  | cons x t ih =>
      cases b with
      | nil => simp at hlen
      | cons y u =>
          refine List.cons_eq_cons.mpr ⟨?_, ?_⟩
          · simpa using h 0
          · exact ih u (by simpa using hlen) (fun i => by simpa using h (i + 1))

theorem getD_flipBit (l : List Bool) (k i : Nat) (hi : i < l.length) :
    (flipBit l k).getD i false
      = if i = k then !(l.getD i false) else l.getD i false := by
  induction l generalizing k i with
  | nil => simp at hi
  | cons b t ih =>
      cases k with
      | zero =>
          cases i with
          | zero => simp [flipBit]
          | succ i => simp [flipBit]
      | succ k =>
          cases i with
          | zero => simp [flipBit]
          | succ i =>
              simp only [flipBit, List.getD_cons_succ]
              rw [ih k i (by simpa using hi)]
              simp

theorem getD_flipBit_self (l : List Bool) (k : Nat) (h : k < l.length) :
    (flipBit l k).getD k false = !(l.getD k false) := by
  induction l generalizing k with
  | nil => simp at h
  | cons b t ih =>
      cases k with
      | zero => simp [flipBit]
      | succ k =>
          simp only [flipBit, List.getD_cons_succ]
          exact ih k (by simpa using h)

theorem flipBit_ne (l : List Bool) (k : Nat) (h : k < l.length) : flipBit l k ≠ l := by
  intro heq
  have h2 := getD_flipBit_self l k h
  rw [heq] at h2
  cases l.getD k false <;> simp at h2

theorem oneHot_ne_zero (k : Nat) (h : k < 128) : oneHot 128 k ≠ zero128 := by
  have := flipBit_ne (List.replicate 128 false) k (by simpa using h)
  simpa [oneHot, zero128] using this

theorem length_oneHot (n k : Nat) : (oneHot n k).length = n := by
  simp [oneHot, length_flipBit]

theorem flipBit_append_left (a b : List Bool) (k : Nat) (h : k < a.length) :
    flipBit (a ++ b) k = flipBit a k ++ b := by
  induction a generalizing k with
  | nil => simp at h
  | cons x t ih =>
      cases k with
      | zero => rfl
      | succ k =>
          have h2 := ih k (by simpa using h)
          simp only [List.cons_append, flipBit]
          exact List.cons_eq_cons.mpr ⟨rfl, h2⟩

theorem flipBit_append_right (a b : List Bool) (k : Nat) (h : a.length ≤ k) :
    flipBit (a ++ b) k = a ++ flipBit b (k - a.length) := by
  induction a generalizing k with
  | nil => simp
  | cons x t ih =>
      cases k with
      | zero => simp at h
      | succ k =>
          have h2 := ih k (by simpa using h)
          simp only [List.cons_append, flipBit, List.length_cons, Nat.succ_sub_succ]
          exact List.cons_eq_cons.mpr ⟨rfl, h2⟩

theorem xor_one_shiftLeft_ne (b j : Nat) : b ^^^ (1 <<< j) ≠ b := by
  intro h
  have h2 := congrArg (fun n => n.testBit j) h
  simp [Nat.one_shiftLeft, Nat.testBit_xor, Nat.testBit_two_pow_self] at h2

theorem getD_natBits (w x i : Nat) (hi : i < w) :
    (natBits w x).getD i false = x.testBit i := by
  simp [natBits, List.getD_eq_getElem?_getD, List.getElem?_map, List.getElem?_range, hi]

theorem byteToBits_flip (b j : Nat) (hj : j < 8) :
    byteToBits (b ^^^ (1 <<< j)) = flipBit (byteToBits b) j := by
  apply ext_getD_bool
  · simp [length_byteToBits, length_flipBit]
  · intro i
    by_cases hi : i < 8
    · rw [getD_flipBit (byteToBits b) j i (by rw [length_byteToBits]; exact hi)]
      simp only [byteToBits]
      rw [getD_natBits 8 (b ^^^ (1 <<< j)) i hi, getD_natBits 8 b i hi]
      by_cases hij : i = j
      · subst hij
        simp [Nat.one_shiftLeft, Nat.testBit_xor, Nat.testBit_two_pow_self]
      · simp [Nat.one_shiftLeft, Nat.testBit_xor, Nat.testBit_two_pow_of_ne (Ne.symm hij),
          hij]
    · rw [List.getD_eq_default, List.getD_eq_default]
      · rw [length_flipBit, length_byteToBits]
        omega
      · rw [length_byteToBits]
        omega

theorem bytesToBits_flip (bs : List Nat) (k : Nat) (h : k < 8 * bs.length) :
    bytesToBits (flipByteBit bs k) = flipBit (bytesToBits bs) k := by
  induction bs generalizing k with
  | nil => simp at h
  | cons b t ih =>
      by_cases hk : k < 8
      · simp only [flipByteBit, if_pos hk, bytesToBits, List.map_cons, List.flatten_cons]
        rw [byteToBits_flip b k hk,
          ← flipBit_append_left (byteToBits b) ((t.map byteToBits).flatten) k
            (by rw [length_byteToBits]; exact hk)]
      · simp only [flipByteBit, if_neg hk, bytesToBits, List.map_cons, List.flatten_cons]
        have hk8 : 8 ≤ k := Nat.le_of_not_lt hk
        have hb : k - 8 < 8 * t.length := by simp [List.length_cons] at h; omega
        have ihh := ih (k - 8) hb
        simp only [bytesToBits] at ihh
        rw [ihh, flipBit_append_right (byteToBits b) ((t.map byteToBits).flatten) k
          (by rw [length_byteToBits]; exact hk8), length_byteToBits]

theorem flipByteBit_ne (l : List Nat) (k : Nat) (h : k < 8 * l.length) :
    flipByteBit l k ≠ l := by
  induction l generalizing k with
  | nil => simp at h
  | cons b t ih =>
      by_cases hk : k < 8
      · simp only [flipByteBit, if_pos hk, ne_eq, List.cons.injEq, not_and]
        intro hb
        exact absurd hb (xor_one_shiftLeft_ne b k)
      · simp only [flipByteBit, if_neg hk, ne_eq, List.cons.injEq, not_and]
        intro _
        apply ih
        simp [List.length_cons] at h
        omega

theorem take_flipByteBit_lt (l : List Nat) (n k : Nat) (h : k < 8 * n) :
    (flipByteBit l k).take n = flipByteBit (l.take n) k := by
  induction l generalizing n k with
  | nil => simp [flipByteBit]
  | cons b t ih =>
      cases n with
      | zero => simp at h
      | succ n =>
          by_cases hk : k < 8
          · simp [flipByteBit, hk]
          · simp only [flipByteBit, if_neg hk, List.take_succ_cons]
            rw [ih n (k - 8) (by omega)]

theorem take_flipByteBit_ge (l : List Nat) (n k : Nat) (h : 8 * n ≤ k) :
    (flipByteBit l k).take n = l.take n := by
  induction l generalizing n k with
  | nil => simp [flipByteBit]
  | cons b t ih =>
      cases n with
      | zero => simp
      | succ n =>
          have hk : ¬ k < 8 := by omega
          simp only [flipByteBit, if_neg hk, List.take_succ_cons]
          rw [ih n (k - 8) (by omega)]

theorem drop_flipByteBit_ge (l : List Nat) (n k : Nat) (h : 8 * n ≤ k) :
    (flipByteBit l k).drop n = flipByteBit (l.drop n) (k - 8 * n) := by
  induction l generalizing n k with
  | nil => simp [flipByteBit]
  | cons b t ih =>
      cases n with
      | zero => simp
      | succ n =>
          have hk : ¬ k < 8 := by omega
          simp only [flipByteBit, if_neg hk, List.drop_succ_cons]
          rw [ih n (k - 8) (by omega)]
          congr 1
          omega

theorem flipByteBit_lt_256 (l : List Nat) (k : Nat) (hv : ∀ b ∈ l, b < 256) :
    ∀ b ∈ flipByteBit l k, b < 256 := by
  induction l generalizing k with
  | nil => simp [flipByteBit]
  | cons b t ih =>
      simp only [flipByteBit]
      split
      · rename_i hk
        intro x hx
        rcases List.mem_cons.mp hx with h1 | h1
        · subst h1
          have hlt : (1 : Nat) <<< k < 2 ^ 8 := by
            rw [Nat.one_shiftLeft]
            exact Nat.pow_lt_pow_right (by norm_num) (by omega)
          have hb256 : b < 2 ^ 8 := hv b (List.mem_cons_self b t)
          exact Nat.xor_lt_two_pow hb256 hlt
        · exact hv x (List.mem_cons_of_mem b h1)
      · intro x hx
        rcases List.mem_cons.mp hx with h1 | h1
        · subst h1; exact hv x (List.mem_cons_self x t)
        · exact ih (k - 8) (fun y hy => hv y (List.mem_cons_of_mem b hy)) x h1

theorem length_rPoly : rPoly.length = 128 := by simp [rPoly]

theorem length_xmul (v : List Bool) (h : v.length = 128) : (xmul v).length = 128 := by
  simp only [xmul]
  split <;> simp [length_xorBits, length_rPoly, h]

theorem xmul_zero : xmul zero128 = zero128 := by
  have h1 : (zero128.getD 127 false) = false := by decide
  simp only [xmul, h1, if_neg, zero128, List.take_replicate]
  rfl

theorem getD_xorBits (a b : List Bool) (i : Nat) (h : a.length = b.length) :
    (xorBits a b).getD i false = ((a.getD i false) ^^ (b.getD i false)) := by
  induction a generalizing b i with
  | nil =>
      cases b with
      | nil => simp [xorBits]
      | cons y u => simp at h
  | cons x t ih =>
      cases b with
      | nil => simp at h
      | cons y u =>
          cases i with
          | zero => simp [xorBits]
          | succ i =>
              simp only [xorBits, List.zipWith_cons_cons, List.getD_cons_succ]
              exact ih u i (by simpa using h)

theorem xmul_linear (a b : List Bool) (ha : a.length = 128) (hb : b.length = 128) :
    xmul (xorBits a b) = xorBits (xmul a) (xmul b) := by
  have hth : (xorBits a b).getD 127 false = ((a.getD 127 false) ^^ (b.getD 127 false)) :=
    getD_xorBits a b 127 (by rw [ha, hb])
  have hsh : false :: (xorBits a b).take 127 =
      xorBits (false :: a.take 127) (false :: b.take 127) := by
    simp only [xorBits, List.take_zipWith, List.zipWith_cons_cons, Bool.xor_false]
  have hlen_sh : (false :: a.take 127).length = 128 := by simp [ha]
  have hlen_shb : (false :: b.take 127).length = 128 := by simp [hb]
  simp only [xmul, hth, hsh]
  cases hA : a.getD 127 false <;> cases hB : b.getD 127 false
  · -- both high bits clear
    simp
  · -- only b's high bit set
    simp only [Bool.false_xor, if_true, ite_true, if_false, ite_false,
      Bool.false_eq_true, reduceIte]
    rw [xorBits_assoc]
  · -- only a's high bit set
    simp only [Bool.xor_false, if_true, ite_true, if_false, ite_false,
      Bool.false_eq_true, reduceIte]
    rw [xorBits_assoc, xorBits_comm (false :: b.take 127) rPoly, ← xorBits_assoc]
  · -- both high bits set: the two reductions cancel
    simp only [Bool.xor_self, if_true, ite_true, if_false, ite_false,
      Bool.false_eq_true, reduceIte]
    have hz := xorBits_zero_left (false :: b.take 127)
    rw [hlen_shb] at hz
    rw [xorBits_comm (false :: b.take 127) rPoly,
      xorBits_assoc (false :: a.take 127) rPoly (xorBits rPoly (false :: b.take 127)),
      ← xorBits_assoc rPoly rPoly (false :: b.take 127), xorBits_self rPoly, length_rPoly,
      hz]

theorem xorBits_zero128 : xorBits zero128 zero128 = zero128 := by
  rw [xorBits_self, length_zero128]; rfl

theorem length_gmulAux (bs : List Bool) (a acc : List Bool) (ha : a.length = 128)
    (hacc : acc.length = 128) : (gmulAux a bs acc).length = 128 := by
  induction bs generalizing a acc with
  | nil => exact hacc
  | cons b bt ih =>
      simp only [gmulAux]
      cases b
      · simpa using ih (xmul a) acc (length_xmul a ha) hacc
      · exact ih (xmul a) (xorBits acc a) (length_xmul a ha)
          (by simp [length_xorBits, hacc, ha])

theorem length_gmul (a b : List Bool) (ha : a.length = 128) : (gmul a b).length = 128 :=
  length_gmulAux b a zero128 ha length_zero128

theorem gmulAux_zero (bs : List Bool) : gmulAux zero128 bs zero128 = zero128 := by
  induction bs with
  | nil => rfl
  | cons b bt ih =>
      cases b <;> simp only [gmulAux, xmul_zero, ite_true, ite_false, if_true, if_false,
        Bool.false_eq_true, reduceIte, xorBits_zero128] <;> exact ih

theorem gmul_zero_left (b : List Bool) : gmul zero128 b = zero128 := gmulAux_zero b

theorem gmulAux_linear (bs : List Bool) (a1 a2 acc1 acc2 : List Bool)
    (h1 : a1.length = 128) (h2 : a2.length = 128)
    (hc1 : acc1.length = 128) (hc2 : acc2.length = 128) :
    gmulAux (xorBits a1 a2) bs (xorBits acc1 acc2)
      = xorBits (gmulAux a1 bs acc1) (gmulAux a2 bs acc2) := by
  induction bs generalizing a1 a2 acc1 acc2 with
  | nil => rfl
  | cons b bt ih =>
      simp only [gmulAux]
      rw [xmul_linear a1 a2 h1 h2]
      cases b
      · simp only [Bool.false_eq_true, reduceIte]
        exact ih (xmul a1) (xmul a2) acc1 acc2 (length_xmul a1 h1) (length_xmul a2 h2) hc1 hc2
      · simp only [reduceIte]
        have hsh : xorBits (xorBits acc1 acc2) (xorBits a1 a2)
            = xorBits (xorBits acc1 a1) (xorBits acc2 a2) := by
          rw [xorBits_assoc acc1 acc2 (xorBits a1 a2), xorBits_left_comm acc2 a1 a2,
            ← xorBits_assoc acc1 a1 (xorBits acc2 a2)]
        rw [hsh]
        exact ih (xmul a1) (xmul a2) (xorBits acc1 a1) (xorBits acc2 a2)
          (length_xmul a1 h1) (length_xmul a2 h2)
          (by simp [length_xorBits, hc1, h1]) (by simp [length_xorBits, hc2, h2])

theorem gmul_linear (a1 a2 b : List Bool) (h1 : a1.length = 128) (h2 : a2.length = 128) :
    gmul (xorBits a1 a2) b = xorBits (gmul a1 b) (gmul a2 b) := by
  have h := gmulAux_linear b a1 a2 zero128 zero128 h1 h2 length_zero128 length_zero128
  rwa [xorBits_zero128] at h

theorem gmulAux_replicate_false (n : Nat) (a acc : List Bool) :
    gmulAux a (List.replicate n false) acc = acc := by
  induction n generalizing a with
  | zero => rfl
  | succ n ih =>
      simp only [List.replicate_succ, gmulAux, Bool.false_eq_true, reduceIte]
      exact ih (xmul a)

theorem gmulAux_cons_true (a bs acc : List Bool) :
    gmulAux a (true :: bs) acc = gmulAux (xmul a) bs (xorBits acc a) := rfl

theorem gmul_one (v : List Bool) (hv : v.length = 128) : gmul v oneBlock = v := by
  show gmulAux v (true :: List.replicate 127 false) zero128 = v
  rw [gmulAux_cons_true, gmulAux_replicate_false]
  have h2 := xorBits_zero_left v
  rw [hv] at h2
  exact h2

theorem length_iterMulH (H : List Bool) (n : Nat) (d : List Bool) (hd : d.length = 128) :
    (iterMulH H n d).length = 128 := by
  induction n generalizing d with
  | zero => exact hd
  | succ n ih => exact ih (gmul d H) (length_gmul d H hd)

/-- If multiplication by `H` has trivial kernel, it stays nonzero under iteration. -/
theorem iterMulH_ne_zero (H : List Bool)
    (hker : ∀ v : List Bool, v.length = 128 → gmul v H = zero128 → v = zero128)
    (n : Nat) (d : List Bool) (hd : d.length = 128) (hnz : d ≠ zero128) :
    iterMulH H n d ≠ zero128 := by
  induction n generalizing d with
  | zero => exact hnz
  | succ n ih =>
      refine ih (gmul d H) (length_gmul d H hd) ?_
      intro h0
      exact hnz (hker d hd h0)

theorem length_ghashAux (H : List Bool) (bs : List (List Bool)) :
    ∀ y : List Bool, (∀ X ∈ bs, X.length = 128) → y.length = 128 →
      (ghashAux H bs y).length = 128 := by
  induction bs with
  | nil => exact fun y _ hy => hy
  | cons X t ih =>
      intro y hbs hy
      have hX := hbs X (List.mem_cons_self X t)
      exact ih (gmul (xorBits y X) H) (fun Z hZ => hbs Z (List.mem_cons_of_mem X hZ))
        (length_gmul _ H (by simp [length_xorBits, hy, hX]))

theorem ghashAux_xor_diff (H : List Bool) (bs : List (List Bool)) (y d : List Bool)
    (hbs : ∀ X ∈ bs, X.length = 128) (hy : y.length = 128) (hd : d.length = 128) :
    ghashAux H bs (xorBits y d)
      = xorBits (ghashAux H bs y) (iterMulH H bs.length d) := by
  induction bs generalizing y d with
  | nil => rfl
  | cons X t ih =>
      simp only [ghashAux, List.length_cons]
      have hX : X.length = 128 := hbs X (List.mem_cons_self X t)
      have hstep : xorBits (xorBits y d) X = xorBits (xorBits y X) d := by
        rw [xorBits_assoc y d X, xorBits_comm d X, ← xorBits_assoc y X d]
      rw [hstep, gmul_linear (xorBits y X) d H (by simp [length_xorBits, hy, hX]) hd]
      have ht := ih (gmul (xorBits y X) H) (gmul d H)
        (fun Z hZ => hbs Z (List.mem_cons_of_mem X hZ))
        (length_gmul _ H (by simp [length_xorBits, hy, hX]))
        (length_gmul d H hd)
      rw [ht]
      rfl

/-- Flipping bit `j` of block `i` of the GHASH input changes the output by
`x^j · H^(m-i)` (expressed with iterated multiplication). -/
theorem ghashAux_flip (H : List Bool) (bs : List (List Bool)) (y : List Bool)
    (i j : Nat) (hi : i < bs.length) (hj : j < 128)
    (hbs : ∀ X ∈ bs, X.length = 128) (hy : y.length = 128) :
    ghashAux H (modifyIdx (fun blk => flipBit blk j) i bs) y
      = xorBits (ghashAux H bs y)
          (iterMulH H (bs.length - 1 - i) (gmul (oneHot 128 j) H)) := by
  induction bs generalizing y i with
  | nil => simp at hi
  | cons X t ih =>
      have hX : X.length = 128 := hbs X (List.mem_cons_self X t)
      cases i with
      | zero =>
          simp only [modifyIdx, ghashAux, List.length_cons, Nat.add_sub_cancel,
            Nat.sub_zero]
          have hflip : flipBit X j = xorBits X (oneHot 128 j) := by
            rw [flipBit_eq_xorBits X j, hX]
          rw [hflip]
          have hstep : xorBits y (xorBits X (oneHot 128 j))
              = xorBits (xorBits y X) (oneHot 128 j) := by
            rw [xorBits_assoc y X (oneHot 128 j)]
          rw [hstep, gmul_linear (xorBits y X) (oneHot 128 j) H
            (by simp [length_xorBits, hy, hX]) (by simp [length_oneHot])]
          exact ghashAux_xor_diff H t (gmul (xorBits y X) H) (gmul (oneHot 128 j) H)
            (fun Z hZ => hbs Z (List.mem_cons_of_mem X hZ))
            (length_gmul _ H (by simp [length_xorBits, hy, hX]))
            (length_gmul _ H (by simp [length_oneHot]))
      | succ i =>
          have h2 := ih (gmul (xorBits y X) H) i (by simpa using hi)
            (fun Z hZ => hbs Z (List.mem_cons_of_mem X hZ))
            (length_gmul _ H (by simp [length_xorBits, hy, hX]))
          have he : (X :: t).length - 1 - (i + 1) = t.length - 1 - i := by
            simp only [List.length_cons]
            omega
          rw [he]
          exact h2

theorem hexVal_hexDigit : ∀ n < 16, hexVal (hexDigit n) = some n := by decide

theorem hexDigit_ne_colon (n : Nat) : hexDigit n ≠ ':' := by
  by_cases h : n < 16
  · interval_cases n <;> decide
  · rw [hexDigit, List.getD_eq_default]
    · decide
    · simp [hexDigitChars]
      omega

theorem hexDecode_hexEncode (bs : List Nat) (hv : ∀ b ∈ bs, b < 256) :
    hexDecode (hexEncode bs) = bs := by
  induction bs with
  | nil => rfl
  | cons b t ih =>
      have hb : b < 256 := hv b (List.mem_cons_self b t)
      have h1 : b / 16 < 16 := by omega
      have h2 : b % 16 < 16 := by omega
      simp only [hexEncode, hexDecode, hexVal_hexDigit _ h1, hexVal_hexDigit _ h2]
      rw [ih (fun x hx => hv x (List.mem_cons_of_mem b hx))]
      congr 1
      omega

theorem hexEncode_ne_colon (bs : List Nat) : ∀ c ∈ hexEncode bs, c ≠ ':' := by
  induction bs with
  | nil => simp [hexEncode]
  | cons b t ih =>
      intro c hc
      simp only [hexEncode, List.mem_cons] at hc
      rcases hc with h | h | h
      · exact h ▸ hexDigit_ne_colon _
      · exact h ▸ hexDigit_ne_colon _
      · exact ih c h

theorem splitOnChar_no_sep (sep : Char) (a : List Char) (h : ∀ c ∈ a, c ≠ sep) :
    splitOnChar sep a = [a] := by
  induction a with
  | nil => rfl
  | cons c t ih =>
      have hc : ¬ c = sep := h c (List.mem_cons_self c t)
      simp only [splitOnChar, if_neg hc, ih (fun x hx => h x (List.mem_cons_of_mem c hx))]
      rfl

theorem splitOnChar_append_sep (sep : Char) (a rest : List Char) (h : ∀ c ∈ a, c ≠ sep) :
    splitOnChar sep (a ++ sep :: rest) = a :: splitOnChar sep rest := by
  induction a with
  | nil => simp [splitOnChar]
  | cons c t ih =>
      have hc : ¬ c = sep := h c (List.mem_cons_self c t)
      have ih2 := ih (fun x hx => h x (List.mem_cons_of_mem c hx))
      simp only [List.cons_append, splitOnChar, if_neg hc, List.append_eq, ih2]
      rfl

theorem xorKeystream_involutive (ks : Nat → Nat) (off : Nat) (l : List Nat) :
    xorKeystream ks off (xorKeystream ks off l) = l := by
  induction l generalizing off with
  | nil => rfl
  | cons b t ih =>
      simp only [xorKeystream, Nat.xor_assoc, Nat.xor_self, Nat.xor_zero]
      exact List.cons_eq_cons.mpr ⟨rfl, ih (off + 1)⟩

theorem length_xorKeystream (ks : Nat → Nat) (off : Nat) (l : List Nat) :
    (xorKeystream ks off l).length = l.length := by
  induction l generalizing off with
  | nil => rfl
  | cons b t ih => simp [xorKeystream, ih]

theorem xorKeystream_lt_256 (ks : Nat → Nat) (off : Nat) (l : List Nat)
    (hl : ∀ b ∈ l, b < 256) (hks : ∀ i, ks i < 256) :
    ∀ b ∈ xorKeystream ks off l, b < 256 := by
  induction l generalizing off with
  | nil => simp [xorKeystream]
  | cons b t ih =>
      intro x hx
      rcases List.mem_cons.mp hx with h | h
      · subst h
        have h1 : b < 2 ^ 8 := by simpa using hl b (List.mem_cons_self b t)
        have h2 : ks off < 2 ^ 8 := by simpa using hks off
        simpa using Nat.xor_lt_two_pow h1 h2
      · exact ih (off + 1) (fun y hy => hl y (List.mem_cons_of_mem b hy)) x h

theorem bitsToBytes_lt_256 : ∀ l : List Bool, ∀ b ∈ bitsToBytes l, b < 256
  | b0 :: b1 :: b2 :: b3 :: b4 :: b5 :: b6 :: b7 :: t => by
      intro x hx
      rcases List.mem_cons.mp hx with h | h
      · subst h
        have := bitsToNat_lt [b0, b1, b2, b3, b4, b5, b6, b7]
        simpa using this
      · exact bitsToBytes_lt_256 t x h
  | [] => by simp [bitsToBytes]
  | [_] => by simp [bitsToBytes]
  | [_, _] => by simp [bitsToBytes]
  | [_, _, _] => by simp [bitsToBytes]
  | [_, _, _, _] => by simp [bitsToBytes]
  | [_, _, _, _, _] => by simp [bitsToBytes]
  | [_, _, _, _, _, _] => by simp [bitsToBytes]
  | [_, _, _, _, _, _, _] => by simp [bitsToBytes]

/-! ## Partitioning byte strings into 128-bit GHASH blocks -/

theorem drop_flipByteBit_lt (l : List Nat) (n k : Nat) (h : k < 8 * n) :
    (flipByteBit l k).drop n = l.drop n := by
  induction l generalizing n k with
  | nil => simp [flipByteBit]
  | cons b t ih =>
      cases n with
      | zero => simp at h
      | succ n =>
          by_cases hk : k < 8
          · simp [flipByteBit, hk]
          · simp only [flipByteBit, if_neg hk, List.drop_succ_cons]
            exact ih n (k - 8) (by omega)

theorem length_padBlock (bits : List Bool) (h : bits.length ≤ 128) :
    (padBlock bits).length = 128 := by
  simp [padBlock]
  omega

theorem bytesToBlocksAux_block_length (f : Nat) (bs : List Nat) (hf : bs.length ≤ 16 * f) :
    ∀ X ∈ bytesToBlocksAux f bs, X.length = 128 := by
  induction f generalizing bs with
  | zero =>
      cases bs with
      | nil => simp [bytesToBlocksAux]
      | cons b t => simp at hf
  | succ f ih =>
      cases bs with
      | nil => simp [bytesToBlocksAux]
      | cons b t =>
          intro X hX
          rcases List.mem_cons.mp hX with h | h
          · subst h
            apply length_padBlock
            rw [length_bytesToBits]
            have := List.length_take_le 16 (b :: t)
            omega
          · refine ih ((b :: t).drop 16) ?_ X h
            simp only [List.length_cons] at hf
            simp only [List.length_drop, List.length_cons]
            omega

theorem bytesToBlocks_block_length (bs : List Nat) :
    ∀ X ∈ bytesToBlocks bs, X.length = 128 :=
  bytesToBlocksAux_block_length bs.length bs (by omega)

theorem length_bytesToBlocksAux (f : Nat) (bs : List Nat) (hf : bs.length ≤ 16 * f) :
    (bytesToBlocksAux f bs).length = (bs.length + 15) / 16 := by
  induction f generalizing bs with
  | zero =>
      cases bs with
      | nil => simp [bytesToBlocksAux]
      | cons b t => simp at hf
  | succ f ih =>
      cases bs with
      | nil => simp [bytesToBlocksAux]
      | cons b t =>
          simp only [List.length_cons] at hf
          simp only [bytesToBlocksAux, List.length_cons]
          rw [ih ((b :: t).drop 16) (by simp only [List.length_drop, List.length_cons]; omega)]
          simp only [List.length_drop, List.length_cons]
          omega

theorem modifyIdx_append_left {α : Type} (g : α → α) (i : Nat) (a b : List α)
    (h : i < a.length) :
    modifyIdx g i (a ++ b) = modifyIdx g i a ++ b := by
  induction a generalizing i with
  | nil => simp at h
  | cons x t ih =>
      cases i with
      | zero => rfl
      | succ i =>
          simp only [List.cons_append, modifyIdx]
          exact List.cons_eq_cons.mpr ⟨rfl, ih i (by simpa using h)⟩

/-- Flipping byte-level bit `k` moves, through the block partition, to
flipping bit `k % 128` of block `k / 128`. -/
theorem bytesToBlocksAux_flip (f : Nat) (bs : List Nat) (k : Nat)
    (hk : k < 8 * bs.length) (hf : bs.length ≤ 16 * f) :
    bytesToBlocksAux f (flipByteBit bs k)
      = modifyIdx (fun blk => flipBit blk (k % 128)) (k / 128) (bytesToBlocksAux f bs) := by
  induction f generalizing bs k with
  | zero =>
      exfalso
      omega
  | succ f ih =>
      cases bs with
      | nil => simp at hk
      | cons b t =>
          simp only [List.length_cons] at hk hf
          by_cases h128 : k < 128
          · have hdiv : k / 128 = 0 := Nat.div_eq_of_lt h128
            have hmod : k % 128 = k := Nat.mod_eq_of_lt h128
            have hne : flipByteBit (b :: t) k ≠ [] := by
              intro hcon
              have := length_flipByteBit (b :: t) k
              rw [hcon] at this
              simp at this
            rcases hflip : flipByteBit (b :: t) k with _ | ⟨fb, ft⟩
            · exact absurd hflip hne
            · rw [← hflip]
              have hlenf : (flipByteBit (b :: t) k).length = (b :: t).length :=
                length_flipByteBit (b :: t) k
              have htake : (flipByteBit (b :: t) k).take 16 = flipByteBit ((b :: t).take 16) k :=
                take_flipByteBit_lt (b :: t) 16 k (by omega)
              have hdrop : (flipByteBit (b :: t) k).drop 16 = (b :: t).drop 16 :=
                drop_flipByteBit_lt (b :: t) 16 k (by omega)
              have hbl : bytesToBlocksAux (f + 1) (flipByteBit (b :: t) k)
                  = padBlock (bytesToBits ((flipByteBit (b :: t) k).take 16))
                    :: bytesToBlocksAux f ((flipByteBit (b :: t) k).drop 16) := by
                rw [hflip]
                rfl
              rw [hbl, htake, hdrop]
              have hkbits : k < 8 * ((b :: t).take 16).length := by
                rw [List.length_take]
                simp only [List.length_cons]
                omega
              rw [bytesToBits_flip ((b :: t).take 16) k hkbits]
              have hpb : padBlock (flipBit (bytesToBits ((b :: t).take 16)) k)
                  = flipBit (padBlock (bytesToBits ((b :: t).take 16))) k := by
                simp only [padBlock, length_flipBit]
                rw [flipBit_append_left]
                rw [length_bytesToBits]
                exact hkbits
              rw [hpb, hdiv, hmod]
              rfl
          · -- the flip lands in a later block
            have h16 : 16 < (b :: t).length := by
              simp only [List.length_cons]
              omega
            have htake : (flipByteBit (b :: t) k).take 16 = (b :: t).take 16 :=
              take_flipByteBit_ge (b :: t) 16 k (by omega)
            have hdrop : (flipByteBit (b :: t) k).drop 16
                = flipByteBit ((b :: t).drop 16) (k - 128) := by
              have := drop_flipByteBit_ge (b :: t) 16 k (by omega)
              simpa using this
            have hne : flipByteBit (b :: t) k ≠ [] := by
              intro hcon
              have := length_flipByteBit (b :: t) k
              rw [hcon] at this
              simp at this
            rcases hflip : flipByteBit (b :: t) k with _ | ⟨fb, ft⟩
            · exact absurd hflip hne
            · rw [← hflip]
              have hbl : bytesToBlocksAux (f + 1) (flipByteBit (b :: t) k)
                  = padBlock (bytesToBits ((flipByteBit (b :: t) k).take 16))
                    :: bytesToBlocksAux f ((flipByteBit (b :: t) k).drop 16) := by
                rw [hflip]
                rfl
              rw [hbl, htake, hdrop]
              have hrec := ih ((b :: t).drop 16) (k - 128)
                (by simp only [List.length_drop, List.length_cons]; omega)
                (by simp only [List.length_drop, List.length_cons]; omega)
              rw [hrec]
              have hdiv : k / 128 = (k - 128) / 128 + 1 := by omega
              have hmod : k % 128 = (k - 128) % 128 := by omega
              rw [hdiv, hmod]
              rfl

theorem length_lenBlock (a c : Nat) : (lenBlock a c).length = 128 := by
  simp [lenBlock, len64, length_natBits]

theorem ghash_blocks_length (data : List Nat) :
    ∀ X ∈ bytesToBlocks data ++ [lenBlock 0 (8 * data.length)], X.length = 128 := by
  intro X hX
  rcases List.mem_append.mp hX with h | h
  · exact bytesToBlocks_block_length data X h
  · rw [List.mem_singleton.mp h]
    exact length_lenBlock 0 (8 * data.length)

theorem length_gcmGhash (H : List Bool) (data : List Nat) :
    (gcmGhash H data).length = 128 :=
  length_ghashAux H _ zero128 (ghash_blocks_length data) length_zero128

theorem getD_lt_256 (l : List Nat) (i : Nat) (h : ∀ b ∈ l, b < 256) :
    l.getD i 0 < 256 := by
  induction l generalizing i with
  | nil => simp [List.getD]
  | cons b t ih =>
      cases i with
      | zero => exact h b (List.mem_cons_self b t)
      | succ i =>
          rw [List.getD_cons_succ]
          exact ih i (fun x hx => h x (List.mem_cons_of_mem b hx))

theorem ksByte_lt_256 (E : List Bool → List Bool) (j0 : List Bool) (i : Nat) :
    ksByte E j0 i < 256 :=
  getD_lt_256 _ _ (bitsToBytes_lt_256 _)

theorem gcmCipherBytes_lt_256 (E : List Bool → List Bool) (j0 : List Bool)
    (data : List Nat) (hv : ∀ b ∈ data, b < 256) :
    ∀ b ∈ gcmCipherBytes E j0 data, b < 256 :=
  xorKeystream_lt_256 (ksByte E j0) 0 data hv (ksByte_lt_256 E j0)

theorem length_gcmCipherBytes (E : List Bool → List Bool) (j0 : List Bool)
    (data : List Nat) : (gcmCipherBytes E j0 data).length = data.length :=
  length_xorKeystream (ksByte E j0) 0 data

theorem gcmCipherBytes_involutive (E : List Bool → List Bool) (j0 : List Bool)
    (data : List Nat) : gcmCipherBytes E j0 (gcmCipherBytes E j0 data) = data :=
  xorKeystream_involutive (ksByte E j0) 0 data

theorem length_gcmTagBytes (E : List Bool → List Bool) (H j0 : List Bool)
    (ct : List Nat) (hE : (E j0).length = 128) :
    (gcmTagBytes E H j0 ct).length = 16 := by
  unfold gcmTagBytes
  rw [length_bitsToBytes, length_xorBits, hE, length_gcmGhash]
  simp

theorem gcmTagBytes_lt_256 (E : List Bool → List Bool) (H j0 : List Bool)
    (ct : List Nat) : ∀ b ∈ gcmTagBytes E H j0 ct, b < 256 :=
  bitsToBytes_lt_256 _

theorem splitOnChar_mkBlob (iv tag ct : List Nat) :
    splitOnChar ':' (mkBlob iv tag ct) = [hexEncode iv, hexEncode tag, hexEncode ct] := by
  unfold mkBlob
  rw [splitOnChar_append_sep ':' (hexEncode iv) _ (hexEncode_ne_colon iv),
    splitOnChar_append_sep ':' (hexEncode tag) _ (hexEncode_ne_colon tag),
    splitOnChar_no_sep ':' (hexEncode ct) (hexEncode_ne_colon ct)]

/-! ## Round trip and tamper detection -/

theorem byteToBits_bitsToNat8 : ∀ b0 b1 b2 b3 b4 b5 b6 b7 : Bool,
    byteToBits (bitsToNat [b0, b1, b2, b3, b4, b5, b6, b7])
      = [b0, b1, b2, b3, b4, b5, b6, b7] := by decide

theorem bytesToBits_bitsToBytes : ∀ l : List Bool, l.length % 8 = 0 →
    bytesToBits (bitsToBytes l) = l
  | b0 :: b1 :: b2 :: b3 :: b4 :: b5 :: b6 :: b7 :: t => by
      intro h
      have ht : t.length % 8 = 0 := by
        simp only [List.length_cons] at h
        omega
      simp only [bitsToBytes, bytesToBits, List.map_cons, List.flatten_cons]
      rw [byteToBits_bitsToNat8]
      have ih := bytesToBits_bitsToBytes t ht
      simp only [bytesToBits] at ih
      rw [ih]
      rfl
  | [] => by intro h; rfl
  | [_] => by intro h; simp at h
  | [_, _] => by intro h; simp at h
  | [_, _, _] => by intro h; simp at h
  | [_, _, _, _] => by intro h; simp at h
  | [_, _, _, _, _] => by intro h; simp at h
  | [_, _, _, _, _, _] => by intro h; simp at h
  | [_, _, _, _, _, _, _] => by intro h; simp at h

theorem bitsToBytes_injective_128 (a b : List Bool) (ha : a.length = 128)
    (hb : b.length = 128) (h : bitsToBytes a = bitsToBytes b) : a = b := by
  have h1 := bytesToBits_bitsToBytes a (by omega)
  have h2 := bytesToBits_bitsToBytes b (by omega)
  rw [← h1, ← h2, h]

theorem encrypt_eq (aes : List Nat → List Bool → List Bool) (key iv text : List Nat)
    (hkey : key.length = 32) (hiv : iv.length ≠ 0) :
    encrypt aes key iv text
      = .ok (mkBlob iv
          (gcmTagBytes (aes key) (aes key zero128) (gcmJ0 (aes key zero128) iv)
            (gcmCipherBytes (aes key) (gcmJ0 (aes key zero128) iv) text))
          (gcmCipherBytes (aes key) (gcmJ0 (aes key zero128) iv) text)) := by
  unfold encrypt
  rw [if_neg (by omega), if_neg hiv]

theorem decrypt_mkBlob (aes : List Nat → List Bool → List Bool) (key iv tag ct : List Nat)
    (hkey : key.length = 32) (hiv : iv.length = 16)
    (hivb : ∀ b ∈ iv, b < 256) (htagb : ∀ b ∈ tag, b < 256) (hctb : ∀ b ∈ ct, b < 256)
    (htag16 : tag.length = 16) :
    decrypt aes key (mkBlob iv tag ct)
      = if gcmTagBytes (aes key) (aes key zero128) (gcmJ0 (aes key zero128) iv) ct = tag
        then .ok (gcmCipherBytes (aes key) (gcmJ0 (aes key zero128) iv) ct)
        else .error .integrityError := by
  simp only [decrypt, splitOnChar_mkBlob, hexDecode_hexEncode iv hivb,
    hexDecode_hexEncode tag htagb, hexDecode_hexEncode ct hctb, hkey, hiv, htag16]
  norm_num

/-- Decrypting an unmodified `encrypt` output recovers the plaintext. -/
theorem decrypt_encrypt (aes : List Nat → List Bool → List Bool) (key iv text : List Nat)
    (hkey : key.length = 32) (hiv : iv.length = 16)
    (hivb : ∀ b ∈ iv, b < 256) (htextb : ∀ b ∈ text, b < 256)
    (hE : ∀ b : List Bool, (aes key b).length = 128) :
    ∀ blob, encrypt aes key iv text = .ok blob → decrypt aes key blob = .ok text := by
  intro blob hblob
  rw [encrypt_eq aes key iv text hkey (by omega)] at hblob
  injection hblob with hblob
  subst hblob
  rw [decrypt_mkBlob aes key iv _ _ hkey hiv hivb
    (gcmTagBytes_lt_256 _ _ _ _)
    (gcmCipherBytes_lt_256 _ _ text htextb)
    (length_gcmTagBytes _ _ _ _ (hE _))]
  rw [if_pos rfl, gcmCipherBytes_involutive]

/-- Distinct IVs yield distinct blobs (hence two encryptions of the same
plaintext under fresh random nonces differ). -/
theorem encrypt_ne_of_iv_ne (aes : List Nat → List Bool → List Bool)
    (key iv1 iv2 text : List Nat) (hkey : key.length = 32)
    (h1 : iv1.length = 16) (h2 : iv2.length = 16)
    (hb1 : ∀ b ∈ iv1, b < 256) (hb2 : ∀ b ∈ iv2, b < 256)
    (hne : iv1 ≠ iv2) :
    encrypt aes key iv1 text ≠ encrypt aes key iv2 text := by
  intro h
  rw [encrypt_eq aes key iv1 text hkey (by omega),
    encrypt_eq aes key iv2 text hkey (by omega)] at h
  injection h with h
  have hsplit := congrArg (splitOnChar ':') h
  rw [splitOnChar_mkBlob, splitOnChar_mkBlob] at hsplit
  have hhex : hexEncode iv1 = hexEncode iv2 := by
    injection hsplit with hh _
  have hdec := congrArg hexDecode hhex
  rw [hexDecode_hexEncode iv1 hb1, hexDecode_hexEncode iv2 hb2] at hdec
  exact hne hdec

/-- A single-bit flip anywhere in the hashed byte string changes GHASH,
provided multiplication by the hash subkey `H` has trivial kernel. -/
theorem gcmGhash_flip (H : List Bool) (ct : List Nat) (k : Nat) (hk : k < 8 * ct.length)
    (hker : ∀ v : List Bool, v.length = 128 → gmul v H = zero128 → v = zero128) :
    gcmGhash H (flipByteBit ct k) ≠ gcmGhash H ct := by
  have hlen : (flipByteBit ct k).length = ct.length := length_flipByteBit ct k
  have hblocks : bytesToBlocks (flipByteBit ct k)
      = modifyIdx (fun blk => flipBit blk (k % 128)) (k / 128) (bytesToBlocks ct) := by
    unfold bytesToBlocks
    rw [hlen]
    exact bytesToBlocksAux_flip ct.length ct k hk (by omega)
  have hcount : (bytesToBlocks ct).length = (ct.length + 15) / 16 :=
    length_bytesToBlocksAux ct.length ct (by omega)
  have hidx : k / 128 < (bytesToBlocks ct).length := by
    rw [hcount]
    omega
  have hfull : bytesToBlocks (flipByteBit ct k) ++ [lenBlock 0 (8 * ct.length)]
      = modifyIdx (fun blk => flipBit blk (k % 128)) (k / 128)
          (bytesToBlocks ct ++ [lenBlock 0 (8 * ct.length)]) := by
    rw [hblocks, modifyIdx_append_left _ _ _ _ hidx]
  have hS' : gcmGhash H (flipByteBit ct k)
      = xorBits (gcmGhash H ct)
          (iterMulH H ((bytesToBlocks ct ++ [lenBlock 0 (8 * ct.length)]).length - 1 - k / 128)
            (gmul (oneHot 128 (k % 128)) H)) := by
    unfold gcmGhash
    rw [hlen, hfull]
    exact ghashAux_flip H _ zero128 (k / 128) (k % 128)
      (by rw [List.length_append]; omega)
      (Nat.mod_lt k (by norm_num))
      (ghash_blocks_length ct) length_zero128
  have hd0len : (gmul (oneHot 128 (k % 128)) H).length = 128 :=
    length_gmul _ H (length_oneHot 128 (k % 128))
  have hd0 : gmul (oneHot 128 (k % 128)) H ≠ zero128 := by
    intro h0
    exact oneHot_ne_zero (k % 128) (Nat.mod_lt k (by norm_num))
      (hker _ (length_oneHot 128 (k % 128)) h0)
  have hD : iterMulH H ((bytesToBlocks ct ++ [lenBlock 0 (8 * ct.length)]).length - 1 - k / 128)
      (gmul (oneHot 128 (k % 128)) H) ≠ zero128 :=
    iterMulH_ne_zero H hker _ _ hd0len hd0
  intro hcon
  rw [hS'] at hcon
  have hz : xorBits (gcmGhash H ct) zero128 = gcmGhash H ct := by
    have h0 := xorBits_zero_right (gcmGhash H ct)
    rw [length_gcmGhash] at h0
    exact h0
  nth_rewrite 2 [← hz] at hcon
  have hDlen := length_iterMulH H
    ((bytesToBlocks ct ++ [lenBlock 0 (8 * ct.length)]).length - 1 - k / 128) _ hd0len
  exact hD (xorBits_cancel_left (gcmGhash H ct) _ zero128
    (by rw [length_gcmGhash, hDlen]) (by rw [length_gcmGhash, length_zero128]) hcon)

/-- Under the same kernel condition, a bit flip in the ciphertext changes
the recomputed authentication tag. -/
theorem gcmTagBytes_flip_ct (E : List Bool → List Bool) (H j0 : List Bool)
    (ct : List Nat) (k : Nat) (hk : k < 8 * ct.length)
    (hEj0 : (E j0).length = 128)
    (hker : ∀ v : List Bool, v.length = 128 → gmul v H = zero128 → v = zero128) :
    gcmTagBytes E H j0 (flipByteBit ct k) ≠ gcmTagBytes E H j0 ct := by
  intro h
  have h1 := bitsToBytes_injective_128 _ _
    (by rw [length_xorBits, hEj0, length_gcmGhash]; simp)
    (by rw [length_xorBits, hEj0, length_gcmGhash]; simp) h
  have h2 := xorBits_cancel_left (E j0) _ _
    (by rw [hEj0, length_gcmGhash]) (by rw [hEj0, length_gcmGhash]) h1
  exact gcmGhash_flip H ct k hk hker h2

/-- Decryption rejects a blob whose ciphertext segment has one flipped bit
(kernel condition on the hash subkey as above). -/
theorem decrypt_flip_ct (aes : List Nat → List Bool → List Bool) (key iv text : List Nat)
    (k : Nat) (hkey : key.length = 32) (hiv : iv.length = 16)
    (hivb : ∀ b ∈ iv, b < 256) (htextb : ∀ b ∈ text, b < 256)
    (hE : ∀ b : List Bool, (aes key b).length = 128)
    (hk : k < 8 * text.length)
    (hker : ∀ v : List Bool, v.length = 128 →
      gmul v (aes key zero128) = zero128 → v = zero128) :
    decrypt aes key
      (mkBlob iv
        (gcmTagBytes (aes key) (aes key zero128) (gcmJ0 (aes key zero128) iv)
          (gcmCipherBytes (aes key) (gcmJ0 (aes key zero128) iv) text))
        (flipByteBit (gcmCipherBytes (aes key) (gcmJ0 (aes key zero128) iv) text) k))
      = .error .integrityError := by
  rw [decrypt_mkBlob aes key iv _ _ hkey hiv hivb
    (gcmTagBytes_lt_256 _ _ _ _)
    (flipByteBit_lt_256 _ k (gcmCipherBytes_lt_256 _ _ text htextb))
    (length_gcmTagBytes _ _ _ _ (hE _))]
  rw [if_neg]
  apply gcmTagBytes_flip_ct
  · rw [length_gcmCipherBytes]
    exact hk
  · exact hE _
  · exact hker

/-- Decryption rejects a blob whose tag segment has one flipped bit. -/
theorem decrypt_flip_tag (aes : List Nat → List Bool → List Bool) (key iv text : List Nat)
    (k : Nat) (hkey : key.length = 32) (hiv : iv.length = 16)
    (hivb : ∀ b ∈ iv, b < 256) (htextb : ∀ b ∈ text, b < 256)
    (hE : ∀ b : List Bool, (aes key b).length = 128)
    (hk : k < 128) :
    decrypt aes key
      (mkBlob iv
        (flipByteBit (gcmTagBytes (aes key) (aes key zero128) (gcmJ0 (aes key zero128) iv)
          (gcmCipherBytes (aes key) (gcmJ0 (aes key zero128) iv) text)) k)
        (gcmCipherBytes (aes key) (gcmJ0 (aes key zero128) iv) text))
      = .error .integrityError := by
  have hlen16 : (gcmTagBytes (aes key) (aes key zero128) (gcmJ0 (aes key zero128) iv)
      (gcmCipherBytes (aes key) (gcmJ0 (aes key zero128) iv) text)).length = 16 :=
    length_gcmTagBytes _ _ _ _ (hE _)
  rw [decrypt_mkBlob aes key iv _ _ hkey hiv hivb
    (flipByteBit_lt_256 _ k (gcmTagBytes_lt_256 _ _ _ _))
    (gcmCipherBytes_lt_256 _ _ text htextb)
    (by rw [length_flipByteBit]; exact hlen16)]
  rw [if_neg]
  intro hcon
  exact flipByteBit_ne _ k (by rw [hlen16]; omega) hcon.symm

theorem length_base64urlEncode_mod2 (n : Nat) : ∀ l : List Nat,
    l.length = 3 * n + 2 → (base64urlEncode l).length = 4 * n + 3 := by
  induction n with
  | zero =>
      intro l hl
      rcases l with _ | ⟨a, l⟩
      · simp at hl
      rcases l with _ | ⟨b, l⟩
      · simp at hl
      rcases l with _ | ⟨c, l⟩
      · simp [base64urlEncode]
      · simp only [List.length_cons] at hl
        omega
  | succ n ih =>
      intro l hl
      rcases l with _ | ⟨a, l⟩
      · simp at hl
      rcases l with _ | ⟨b, l⟩
      · simp only [List.length_cons, List.length_nil] at hl
        omega
      rcases l with _ | ⟨c, l⟩
      · simp only [List.length_cons, List.length_nil] at hl
        omega
      have hl2 : l.length = 3 * n + 2 := by
        simp only [List.length_cons] at hl
        omega
      simp only [base64urlEncode, List.length_cons, ih l hl2]
      omega

theorem length_oneBlock : oneBlock.length = 128 := by simp [oneBlock]

/-- C1: for every plaintext byte string and valid 32-byte key,
`decrypt (encrypt p) = p`; `encrypt` consumes a fresh random 16-byte nonce
per call (modelled by the explicit `iv` drawn by `randomBytes(16)`), so two
encryptions of the same plaintext under distinct nonces yield distinct
blobs, and both decrypt back to the original plaintext. -/
theorem c1_encrypt_decrypt_roundtrip
    (aes : List Nat → List Bool → List Bool) (key iv1 iv2 text : List Nat)
    (hkey : key.length = 32)
    (h1 : iv1.length = 16) (h2 : iv2.length = 16)
    (hb1 : ∀ b ∈ iv1, b < 256) (hb2 : ∀ b ∈ iv2, b < 256)
    (htext : ∀ b ∈ text, b < 256)
    (hE : ∀ b : List Bool, (aes key b).length = 128)
    (hne : iv1 ≠ iv2) :
    (∀ blob, encrypt aes key iv1 text = .ok blob → decrypt aes key blob = .ok text)
      ∧ (∀ blob, encrypt aes key iv2 text = .ok blob → decrypt aes key blob = .ok text)
      ∧ encrypt aes key iv1 text ≠ encrypt aes key iv2 text :=
  ⟨decrypt_encrypt aes key iv1 text hkey h1 hb1 htext hE,
   decrypt_encrypt aes key iv2 text hkey h2 hb2 htext hE,
   encrypt_ne_of_iv_ne aes key iv1 iv2 text hkey h1 h2 hb1 hb2 hne⟩

theorem c1_witness :
    wKey.length = 32 ∧ wIv1 ≠ wIv2
      ∧ encrypt wAes wKey wIv1 wText = .ok wBlob1
      ∧ decrypt wAes wKey wBlob1 = .ok wText
      ∧ encrypt wAes wKey wIv1 wText ≠ encrypt wAes wKey wIv2 wText := by
  have hEnc : encrypt wAes wKey wIv1 wText = .ok wBlob1 := rfl
  have h := c1_encrypt_decrypt_roundtrip wAes wKey wIv1 wIv2 wText (by decide) (by decide)
    (by decide) (by decide) (by decide) (by decide) (fun _ => length_oneBlock) (by decide)
  exact ⟨by decide, by decide, hEnc, h.1 wBlob1 hEnc, h.2.2⟩

/-- C2: a blob produced by `encrypt` with any single bit of its
ciphertext or authentication-tag segment flipped is rejected by `decrypt`
with `integrityError`; no plaintext — in particular no different
plaintext — is ever returned for such a blob.  The hypothesis `hker`
states that multiplication by the GCM hash subkey `H = AES_k(0¹²⁸)` has
trivial kernel; for the real AES-256 this fails only in the degenerate
weak-key case `H = 0`, where GCM authentication is genuinely void. -/
theorem c2_decrypt_tamper_rejected
    (aes : List Nat → List Bool → List Bool) (key iv text : List Nat)
    (hkey : key.length = 32) (hiv : iv.length = 16)
    (hivb : ∀ b ∈ iv, b < 256) (htext : ∀ b ∈ text, b < 256)
    (hE : ∀ b : List Bool, (aes key b).length = 128)
    (hker : ∀ v : List Bool, v.length = 128 →
      gmul v (aes key zero128) = zero128 → v = zero128) :
    encrypt aes key iv text
        = .ok (mkBlob iv (gcmTagOf aes key iv text) (gcmCtOf aes key iv text))
      ∧ (∀ k, k < 8 * text.length →
          decrypt aes key
            (mkBlob iv (gcmTagOf aes key iv text) (flipByteBit (gcmCtOf aes key iv text) k))
            = .error .integrityError)
      ∧ (∀ k, k < 8 * (gcmTagOf aes key iv text).length →
          decrypt aes key
            (mkBlob iv (flipByteBit (gcmTagOf aes key iv text) k) (gcmCtOf aes key iv text))
            = .error .integrityError) := by
  refine ⟨encrypt_eq aes key iv text hkey (by omega), ?_, ?_⟩
  · intro k hk
    exact decrypt_flip_ct aes key iv text k hkey hiv hivb htext hE hk hker
  · intro k hk
    have h16 : (gcmTagOf aes key iv text).length = 16 :=
      length_gcmTagBytes _ _ _ _ (hE _)
    rw [h16] at hk
    exact decrypt_flip_tag aes key iv text k hkey hiv hivb htext hE (by omega)

theorem c2_witness :
    wKey.length = 32
      ∧ (∀ v : List Bool, v.length = 128 →
          gmul v (wAes wKey zero128) = zero128 → v = zero128)
      ∧ decrypt wAes wKey
          (mkBlob wIv1 (gcmTagOf wAes wKey wIv1 wText)
            (flipByteBit (gcmCtOf wAes wKey wIv1 wText) 0))
          = .error .integrityError
      ∧ decrypt wAes wKey
          (mkBlob wIv1 (flipByteBit (gcmTagOf wAes wKey wIv1 wText) 0)
            (gcmCtOf wAes wKey wIv1 wText))
          = .error .integrityError := by
  have hker : ∀ v : List Bool, v.length = 128 →
      gmul v (wAes wKey zero128) = zero128 → v = zero128 :=
    fun v hv h0 => (gmul_one v hv).symm.trans h0
  have h := c2_decrypt_tamper_rejected wAes wKey wIv1 wText (by decide) (by decide)
    (by decide) (by decide) (fun _ => length_oneBlock) hker
  refine ⟨by decide, hker, h.2.1 0 (by decide), h.2.2 0 ?_⟩
  have h16 : (gcmTagOf wAes wKey wIv1 wText).length = 16 :=
    length_gcmTagBytes _ _ _ _ length_oneBlock
  rw [h16]
  omega

/-- C9 counterexample: with `ENCRYPTION_KEY` absent, module initialization
*succeeds*, binding an empty 0-byte key — the claimed fatal startup
`ConfigurationError` does not exist in the code; the error only surfaces at
the first call to `encrypt`. -/
theorem c9_counterexample :
    encryptionKeyInit none = [] ∧ (encryptionKeyInit none).length ≠ 32
      ∧ encrypt wAes (encryptionKeyInit none) wIv1 wText
          = .error .configurationError := by
  refine ⟨rfl, by decide, rfl⟩

/-- C9 (amended): if the configured key does not decode to exactly 32
bytes then every call to `encrypt` fails with `configurationError`, and
`createOrUpdateUser` — which encrypts the provider tokens before reading
or writing any row — fails the same way with the store untouched, so no
token is ever stored (in plaintext or otherwise).  The absence of a key is
not detected at startup: `encryptionKeyInit` is total (see the
counterexample). -/
theorem c9_invalid_key_fails_before_store
    (aes : List Nat → List Bool → List Bool) (key : List Nat)
    (hkey : key.length ≠ 32) :
    (∀ iv text, encrypt aes key iv text = .error .configurationError)
      ∧ (∀ (hashFn : String → String) (st : DBState) (now : Nat) (data : NewUserData)
          (iv1 iv2 keyRand : List Nat) (nextId : Nat),
          createOrUpdateUser aes key hashFn st now data iv1 iv2 keyRand nextId
            = .error .configurationError) := by
  have henc : ∀ iv text, encrypt aes key iv text = .error .configurationError := by
    intro iv text
    unfold encrypt
    rw [if_pos hkey]
  refine ⟨henc, ?_⟩
  intro hashFn st now data iv1 iv2 keyRand nextId
  simp only [createOrUpdateUser, henc]
  rfl

theorem c9_witness :
    ([] : List Nat).length ≠ 32
      ∧ encrypt wAes [] wIv1 wText = .error .configurationError
      ∧ createOrUpdateUser wAes [] (fun s => s) wDb0 0 wUserData wIv1 wIv1 wKey 1
          = .error .configurationError := by
  have h := c9_invalid_key_fails_before_store wAes [] (by decide)
  exact ⟨by decide, h.1 wIv1 wText, h.2 (fun s => s) wDb0 0 wUserData wIv1 wIv1 wKey 1⟩

/-- C10: `createOAuthToken` produces its token with the very same
`generateApiKey` generator used for issued API keys, so every OAuth access
token is the marker prefix `cmcp_` followed by the 43-character base64url
encoding of 32 random bytes — by format indistinguishable from an issued
API key, and the stored row carries the requested user, scope and expiry. -/
theorem c10_oauth_token_same_generator (st : DBState) (now userId : Nat)
    (scope : String) (randBytes : List Nat) (expiresIn : Nat)
    (hr : randBytes.length = 32) :
    (createOAuthToken st now userId scope randBytes expiresIn).1
        = generateApiKey randBytes
      ∧ (∃ body : List Char,
          (createOAuthToken st now userId scope randBytes expiresIn).1
              = String.mk ("cmcp_".toList ++ body)
            ∧ body = base64urlEncode randBytes ∧ body.length = 43)
      ∧ (createOAuthToken st now userId scope randBytes expiresIn).2.oauthTokens
          = st.oauthTokens
            ++ [{ token := generateApiKey randBytes, user_id := userId, scope := scope,
                  expires_at := now + expiresIn, created_at := now }] := by
  refine ⟨rfl, ⟨base64urlEncode randBytes, ?_, rfl, ?_⟩, rfl⟩
  · rfl
  · have h := length_base64urlEncode_mod2 10 randBytes (by rw [hr])
    simpa using h

theorem c10_witness :
    (List.replicate 32 (5 : Nat)).length = 32
      ∧ (createOAuthToken wDb0 1000 7 "canvas:read" (List.replicate 32 5) 86400000).1
          = generateApiKey (List.replicate 32 5)
      ∧ (∃ body : List Char,
          (createOAuthToken wDb0 1000 7 "canvas:read" (List.replicate 32 5) 86400000).1
              = String.mk ("cmcp_".toList ++ body)
            ∧ body = base64urlEncode (List.replicate 32 5) ∧ body.length = 43) := by
  have h := c10_oauth_token_same_generator wDb0 1000 7 "canvas:read"
    (List.replicate 32 5) 86400000 (by decide)
  exact ⟨by decide, h.1, h.2.1⟩

/-- C6: under the documented contract of the external password primitive
(`Bun.password`: verification succeeds exactly for the hashed secret),
`verifyApiKey s (hashApiKey s)` is true and `verifyApiKey s' (hashApiKey s)`
is false for every `s' ≠ s`; and `hashApiKey` invokes an argon2id hash
with memory cost 19456 KiB (≥ 19 MB) and time cost 2 (≥ 2). -/
theorem c6_hash_verify_contract
    (pwHash : Argon2Params → String → String) (pwVerify : String → String → Bool)
    (hcorrect : ∀ par s, pwVerify s (pwHash par s) = true)
    (hsound : ∀ par s s', s' ≠ s → pwVerify s' (pwHash par s) = false) :
    (∀ s, verifyApiKey pwVerify s (hashApiKey pwHash s) = true)
      ∧ (∀ s s', s' ≠ s → verifyApiKey pwVerify s' (hashApiKey pwHash s) = false)
      ∧ (∀ s, hashApiKey pwHash s = pwHash hashApiKeyParams s)
      ∧ hashApiKeyParams.algorithm = "argon2id"
      ∧ 19 * 1000 * 1000 ≤ hashApiKeyParams.memoryCost * 1024
      ∧ 2 ≤ hashApiKeyParams.timeCost :=
  ⟨fun s => hcorrect hashApiKeyParams s,
   fun s s' h => hsound hashApiKeyParams s s' h,
   fun _ => rfl, rfl, by decide, by decide⟩

theorem c6_witness :
    verifyApiKey wVerify "cmcp_a" (hashApiKey wHash "cmcp_a") = true
      ∧ ("cmcp_b" : String) ≠ "cmcp_a"
      ∧ verifyApiKey wVerify "cmcp_b" (hashApiKey wHash "cmcp_a") = false
      ∧ hashApiKeyParams.algorithm = "argon2id"
      ∧ 19 * 1000 * 1000 ≤ hashApiKeyParams.memoryCost * 1024
      ∧ 2 ≤ hashApiKeyParams.timeCost := by
  have hcorrect : ∀ par s, wVerify s (wHash par s) = true := by
    intro par s
    simp [wVerify, wHash]
  have hsound : ∀ par s s', s' ≠ s → wVerify s' (wHash par s) = false := by
    intro par s s' hne
    simp only [wVerify, wHash, beq_eq_false_iff_ne, ne_eq]
    exact fun hcon => hne hcon.symm
  have h := c6_hash_verify_contract wHash wVerify hcorrect hsound
  exact ⟨h.1 "cmcp_a", by decide, h.2.1 "cmcp_a" "cmcp_b" (by decide),
    h.2.2.2.1, h.2.2.2.2.1, h.2.2.2.2.2⟩

/-- C8: `getMagicLink t` returns a record only while that record matches
the token, is unexpired and unused; after `markMagicLinkUsed t` every
lookup of `t` at any time returns nothing (a second verification attempt
fails), yet the record itself is retained — marked `used = 1`, not
deleted. -/
theorem c8_magic_link_single_use (st : DBState) (t : String) :
    (∀ now m, getMagicLink st now t = some m →
        m.token = t ∧ now < m.expires_at ∧ m.used = 0)
      ∧ (∀ now', getMagicLink (markMagicLinkUsed st t) now' t = none)
      ∧ (markMagicLinkUsed st t).magicLinks.length = st.magicLinks.length
      ∧ (∀ m ∈ st.magicLinks, m.token = t →
          { m with used := 1 } ∈ (markMagicLinkUsed st t).magicLinks) := by
  refine ⟨?_, ?_, ?_, ?_⟩
  · intro now m hm
    have h := List.find?_some hm
    simpa using h
  · intro now'
    unfold getMagicLink markMagicLinkUsed
    rw [List.find?_eq_none]
    intro m hm
    simp only [List.mem_map] at hm
    obtain ⟨m0, _, hm0⟩ := hm
    by_cases ht : m0.token = t
    · rw [if_pos ht] at hm0
      subst hm0
      simp
    · rw [if_neg ht] at hm0
      subst hm0
      simp [ht]
  · unfold markMagicLinkUsed
    simp
  · intro m hm ht
    unfold markMagicLinkUsed
    simp only [List.mem_map]
    refine ⟨m, hm, ?_⟩
    rw [if_pos ht]

theorem c8_witness :
    getMagicLink wDbMl 5 "tok" = some wMl
      ∧ (wMl.token = "tok" ∧ 5 < wMl.expires_at ∧ wMl.used = 0)
      ∧ getMagicLink (markMagicLinkUsed wDbMl "tok") 5 "tok" = none
      ∧ (markMagicLinkUsed wDbMl "tok").magicLinks.length = wDbMl.magicLinks.length
      ∧ { wMl with used := 1 } ∈ (markMagicLinkUsed wDbMl "tok").magicLinks := by
  have h := c8_magic_link_single_use wDbMl "tok"
  refine ⟨by decide, h.1 5 wMl (by decide), h.2.1 5, h.2.2.1,
    h.2.2.2 wMl (by decide) (by decide)⟩

theorem getSession_cleared_api_key (st : DBState) (sid : String) (now2 : Nat)
    (s2 : Session)
    (h : getSession (clearApiKeyFromSession st sid) sid now2 = some s2) :
    s2.api_key = none := by
  have hpred := List.find?_some h
  have hmem := List.mem_of_find?_eq_some h
  simp only [decide_eq_true_eq] at hpred
  simp only [clearApiKeyFromSession, List.mem_map] at hmem
  obtain ⟨s0, _, hs0⟩ := hmem
  by_cases hid : s0.id = sid
  · rw [if_pos hid] at hs0
    rw [← hs0]
  · rw [if_neg hid] at hs0
    rw [← hs0] at hpred
    exact absurd hpred.1 hid

/-- C7: a session holding a transient plaintext API key surrenders it on
the first GET `/api/user/me`: the response carries the key and the state
transitions through `clearApiKeyFromSession`; afterwards the session's
`api_key` is null, and every subsequent GET `/api/user/me` over that
session returns `api_key = null` — the plaintext key is readable at most
once. -/
theorem c7_api_key_shown_once (st : DBState) (sid : String) (now : Nat) (s : Session)
    (u : User) (uid : Nat) (k : String)
    (hs : getSession st sid now = some s)
    (huid : s.user_id = some uid) (huid0 : uid ≠ 0)
    (hu : findUserById st.users uid = some u)
    (hk : s.api_key = some k) (hk0 : k ≠ "") :
    (userMeGet st now (some sid)).1.apiKeyField = some k
      ∧ (userMeGet st now (some sid)).2 = clearApiKeyFromSession st s.id
      ∧ (∀ now2 s2, getSession (clearApiKeyFromSession st s.id) sid now2 = some s2 →
          s2.api_key = none)
      ∧ (∀ now2,
          (userMeGet (clearApiKeyFromSession st s.id) now2 (some sid)).1.apiKeyField
            = none) := by
  have htruthy : jsTruthyStr s.api_key = true := by
    rw [hk]
    simp [jsTruthyStr, hk0]
  have hsid : s.id = sid := by
    have hpred := List.find?_some hs
    simp only [decide_eq_true_eq] at hpred
    exact hpred.1
  have hmain : userMeGet st now (some sid)
      = (.ok u.canvas_domain u.email u.created_at u.last_used_at s.api_key
          (getUsageStats st u.id).length
          (getUsageStatsSince st u.id (now - 24 * 60 * 60 * 1000)).length
          (getUsageStatsSince st u.id (now - 7 * 24 * 60 * 60 * 1000)).length,
        clearApiKeyFromSession st s.id) := by
    simp only [userMeGet, hs, huid, hu, htruthy, huid0]
    simp
  refine ⟨?_, ?_, ?_, ?_⟩
  · rw [hmain, hk]
    rfl
  · rw [hmain]
  · intro now2 s2 h2
    rw [hsid] at h2
    exact getSession_cleared_api_key st sid now2 s2 h2
  · intro now2
    rcases h2 : getSession (clearApiKeyFromSession st s.id) sid now2 with _ | s2
    · simp [userMeGet, h2, MeResponse.apiKeyField]
    · have hnone : s2.api_key = none := by
        rw [hsid] at h2
        exact getSession_cleared_api_key st sid now2 s2 h2
      rcases h3 : s2.user_id with _ | uid2
      · simp [userMeGet, h2, h3, MeResponse.apiKeyField]
      · by_cases h4 : uid2 = 0
        · simp [userMeGet, h2, h3, h4, MeResponse.apiKeyField]
        · rcases h5 : findUserById (clearApiKeyFromSession st s.id).users uid2 with _ | u2
          · simp [userMeGet, h2, h3, h4, h5, MeResponse.apiKeyField]
          · simp [userMeGet, h2, h3, h4, h5, hnone, jsTruthyStr, MeResponse.apiKeyField]

theorem c7_witness :
    getSession wDb7 "s1" 5 = some wSess
      ∧ (userMeGet wDb7 5 (some "s1")).1.apiKeyField = some "cmcp_k"
      ∧ (userMeGet wDb7 5 (some "s1")).2 = clearApiKeyFromSession wDb7 wSess.id
      ∧ (userMeGet (clearApiKeyFromSession wDb7 wSess.id) 6 (some "s1")).1.apiKeyField
          = none := by
  have h := c7_api_key_shown_once wDb7 "s1" 5 wSess wUser7 1 "cmcp_k" (by decide)
    (by decide) (by decide) (by decide) (by decide) (by decide)
  exact ⟨by decide, h.1, h.2.1, h.2.2.2 6⟩

/-- C4: with the default 900000 ms TTL, a key whose cache entry was
verified at time `t` resolves from the cache — zero hash verifications
(empty trace) and unchanged state — at every time before `t + TTL`, and at
any time after `t + TTL` the entry is treated as stale: the full linear
verify-scan over the users with a non-null key hash runs and, on success,
the key is re-cached at the current time. -/
theorem c4_cache_ttl (verifyFn : String → String → Bool) (st : DBState) (key : String)
    (u : User) (t : Nat)
    (hc : cacheGet st.apiKeyCache key = some ⟨u.id, t⟩)
    (hu : findUserById st.users u.id = some u) :
    (∀ now, now < t + CACHE_TTL →
        getUserByApiKey verifyFn CACHE_TTL st now key = (some u, st, []))
      ∧ (∀ now, t + CACHE_TTL < now →
        getUserByApiKey verifyFn CACHE_TTL st now key
          = (match (scanVerify verifyFn key st.users).1 with
             | some w =>
                (some w, { st with apiKeyCache := cacheSet st.apiKeyCache key ⟨w.id, now⟩ },
                  (scanVerify verifyFn key st.users).2)
             | none => (none, { st with apiKeyCache := st.apiKeyCache },
                  (scanVerify verifyFn key st.users).2))) := by
  constructor
  · intro now hnow
    have hfresh : now - t < CACHE_TTL := by
      unfold CACHE_TTL at *
      omega
    simp only [getUserByApiKey, hc, hfresh, if_true, ite_true, hu]
  · intro now hnow
    have hstale : ¬ now - t < CACHE_TTL := by
      unfold CACHE_TTL at *
      omega
    simp only [getUserByApiKey, hc, hstale, if_false, ite_false]

theorem c4_witness :
    cacheGet wDb4.apiKeyCache "k1" = some ⟨wUser4.id, 0⟩
      ∧ getUserByApiKey wVerify4 CACHE_TTL wDb4 899999 "k1" = (some wUser4, wDb4, [])
      ∧ getUserByApiKey wVerify4 CACHE_TTL wDb4 900001 "k1"
          = (some wUser4, { wDb4 with apiKeyCache := [("k1", ⟨1, 900001⟩)] }, ["h1"]) := by
  have h := c4_cache_ttl wVerify4 wDb4 "k1" wUser4 0 (by decide) (by decide)
  refine ⟨by decide, h.1 899999 (by decide), ?_⟩
  have h2 := h.2 900001 (by decide)
  rw [h2]
  decide

theorem getUserByApiKey_state (verifyFn : String → String → Bool) (ttl : Nat)
    (st : DBState) (now : Nat) (k : String) :
    ∃ c, (getUserByApiKey verifyFn ttl st now k).2.1 = { st with apiKeyCache := c } := by
  unfold getUserByApiKey
  simp only []
  split
  · split
    · split
      · exact ⟨st.apiKeyCache, rfl⟩
      · split
        · exact ⟨_, rfl⟩
        · exact ⟨_, rfl⟩
    · split
      · exact ⟨_, rfl⟩
      · exact ⟨_, rfl⟩
  · split
    · exact ⟨_, rfl⟩
    · exact ⟨_, rfl⟩

theorem getUserByOAuthToken_none (st : DBState) (now : Nat) (tok : String)
    (h : ∀ tk ∈ st.oauthTokens, tk.token = tok → tk.expires_at ≤ now) :
    getUserByOAuthToken st now tok = none := by
  unfold getUserByOAuthToken
  have hfind : st.oauthTokens.find?
      (fun tk => decide (tk.token = tok ∧ now < tk.expires_at)) = none := by
    rw [List.find?_eq_none]
    intro tk htk
    simp only [decide_eq_true_eq, not_and]
    intro ht
    have := h tk htk ht
    omega
  rw [hfind]

/-- C3: the authentication gate.  No bearer token → 401 with the
`WWW-Authenticate` discovery hint naming the OAuth protected-resource
metadata path, and no dispatch.  A presented token is resolved as an
issued API key first; only on a miss is it compared by direct equality
against stored OAuth tokens, any token whose `expires_at` is not in the
future being rejected; if both resolutions miss the request ends in a 401
invalid-credential error and a tool call is never dispatched. -/
theorem c3_auth_gate (verifyFn : String → String → Bool) (cacheTtl : Nat)
    (baseUrl : String) (st : DBState) (now : Nat) :
    (handleMcpRequest verifyFn cacheTtl baseUrl st now none
        = (.errorResp 401 (-32001) "Missing API token. Please authenticate first."
            (some (wwwAuthenticateHint baseUrl)), st)
      ∧ wwwAuthenticateHint baseUrl
          = "Bearer resource_metadata=\"" ++ baseUrl
            ++ "/.well-known/oauth-protected-resource\", scope=\"canvas:read canvas:courses:read\"")
      ∧ (∀ tok u, (getUserByApiKey verifyFn cacheTtl st now tok).1 = some u →
          (handleMcpRequest verifyFn cacheTtl baseUrl st now (some tok)).1
            = .dispatched u.id)
      ∧ (∀ tok, (getUserByApiKey verifyFn cacheTtl st now tok).1 = none →
          (∀ tk ∈ st.oauthTokens, tk.token = tok → tk.expires_at ≤ now) →
          (handleMcpRequest verifyFn cacheTtl baseUrl st now (some tok)).1
              = .errorResp 401 (-32001) "Invalid or expired token" none
            ∧ ∀ uid, (handleMcpRequest verifyFn cacheTtl baseUrl st now (some tok)).1
                ≠ .dispatched uid)
      ∧ (∀ tok, (getUserByApiKey verifyFn cacheTtl st now tok).1 = none →
          ∀ u, getUserByOAuthToken (getUserByApiKey verifyFn cacheTtl st now tok).2.1
              now tok = some u →
            (handleMcpRequest verifyFn cacheTtl baseUrl st now (some tok)).1
              = .dispatched u.id) := by
  refine ⟨⟨rfl, rfl⟩, ?_, ?_, ?_⟩
  · intro tok u h
    simp only [handleMcpRequest, h]
  · intro tok h hexp
    obtain ⟨c, hc⟩ := getUserByApiKey_state verifyFn cacheTtl st now tok
    have hoauth : getUserByOAuthToken
        (getUserByApiKey verifyFn cacheTtl st now tok).2.1 now tok = none := by
      rw [hc]
      exact getUserByOAuthToken_none _ now tok hexp
    constructor
    · simp only [handleMcpRequest, h, hoauth]
    · intro uid
      simp only [handleMcpRequest, h, hoauth]
      intro hcon
      exact McpResponse.noConfusion hcon
  · intro tok h u hoauth
    simp only [handleMcpRequest, h, hoauth]

theorem c3_witness :
    handleMcpRequest wVerify4 CACHE_TTL "http://localhost:3000" wDb4 5 none
        = (.errorResp 401 (-32001) "Missing API token. Please authenticate first."
            (some (wwwAuthenticateHint "http://localhost:3000")), wDb4)
      ∧ (getUserByApiKey wVerify4 CACHE_TTL wDb4 5 "k1").1 = some wUser4
      ∧ (handleMcpRequest wVerify4 CACHE_TTL "http://localhost:3000" wDb4 5
          (some "k1")).1 = .dispatched wUser4.id
      ∧ (getUserByApiKey wVerify4 CACHE_TTL wDb4 5 "zz").1 = none
      ∧ (handleMcpRequest wVerify4 CACHE_TTL "http://localhost:3000" wDb4 5
          (some "zz")).1 = .errorResp 401 (-32001) "Invalid or expired token" none := by
  have h := c3_auth_gate wVerify4 CACHE_TTL "http://localhost:3000" wDb4 5
  exact ⟨h.1.1, by decide, h.2.1 "k1" wUser4 (by decide), by decide,
    (h.2.2.1 "zz" (by decide) (by decide)).1⟩

theorem scanVerify_none (verifyFn : String → String → Bool) (key : String)
    (users : List User)
    (h : ∀ w ∈ users, ∀ hs, w.mcp_api_key = some hs → verifyFn key hs = false) :
    (scanVerify verifyFn key users).1 = none := by
  induction users with
  | nil => rfl
  | cons u rest ih =>
      rcases hk : u.mcp_api_key with _ | hs
      · simp only [scanVerify, hk]
        exact ih (fun w hw => h w (List.mem_cons_of_mem u hw))
      · have hv : verifyFn key hs = false := h u (List.mem_cons_self u rest) hs hk
        simp only [scanVerify, hk, hv, Bool.false_eq_true, reduceIte]
        exact ih (fun w hw => h w (List.mem_cons_of_mem u hw))

theorem scanVerify_found (verifyFn : String → String → Bool) (key : String)
    (users : List User)
    (hex : ∃ w ∈ users, ∃ hs, w.mcp_api_key = some hs ∧ verifyFn key hs = true) :
    ∃ w, (scanVerify verifyFn key users).1 = some w ∧ w ∈ users
      ∧ ∃ hs, w.mcp_api_key = some hs ∧ verifyFn key hs = true := by
  induction users with
  | nil => simp at hex
  | cons u rest ih =>
      obtain ⟨w0, hw0, hs0, hkey0, hv0⟩ := hex
      rcases hk : u.mcp_api_key with _ | hs
      · have hrest : ∃ w ∈ rest, ∃ hs, w.mcp_api_key = some hs ∧ verifyFn key hs = true := by
          rcases List.mem_cons.mp hw0 with h1 | h1
          · rw [h1, hk] at hkey0
            exact absurd hkey0 (by simp)
          · exact ⟨w0, h1, hs0, hkey0, hv0⟩
        obtain ⟨w, hweq, hwmem, hs', hkey', hv'⟩ := ih hrest
        refine ⟨w, ?_, List.mem_cons_of_mem u hwmem, hs', hkey', hv'⟩
        simp only [scanVerify, hk]
        exact hweq
      · by_cases hv : verifyFn key hs = true
        · refine ⟨u, ?_, List.mem_cons_self u rest, hs, hk, hv⟩
          simp only [scanVerify, hk, hv, reduceIte]
        · have hrest : ∃ w ∈ rest, ∃ hs, w.mcp_api_key = some hs ∧ verifyFn key hs = true := by
            rcases List.mem_cons.mp hw0 with h1 | h1
            · rw [h1, hk] at hkey0
              injection hkey0 with hkey0
              rw [hkey0] at hv
              exact absurd hv0 hv
            · exact ⟨w0, h1, hs0, hkey0, hv0⟩
          obtain ⟨w, hweq, hwmem, hs', hkey', hv'⟩ := ih hrest
          refine ⟨w, ?_, List.mem_cons_of_mem u hwmem, hs', hkey', hv'⟩
          simp only [scanVerify, hk, hv, Bool.false_eq_true, reduceIte]
          exact hweq

theorem cacheGet_filter_user_none (c : List (String × ApiKeyCacheEntry)) (k : String)
    (uid : Nat) (h : ∀ p ∈ c, p.1 = k → p.2.userId = uid) :
    cacheGet (c.filter (fun p => decide (p.2.userId ≠ uid))) k = none := by
  unfold cacheGet
  have hfind : (c.filter (fun p => decide (p.2.userId ≠ uid))).find?
      (fun p => decide (p.1 = k)) = none := by
    rw [List.find?_eq_none]
    intro p hp
    rw [List.mem_filter] at hp
    simp only [decide_eq_true_eq] at hp ⊢
    intro hk1
    exact hp.2 (h p hp.1 hk1)
  rw [hfind]
  rfl

theorem cacheGet_filter_absent_none (c : List (String × ApiKeyCacheEntry)) (k : String)
    (uid : Nat) (h : ∀ p ∈ c, p.1 ≠ k) :
    cacheGet (c.filter (fun p => decide (p.2.userId ≠ uid))) k = none := by
  unfold cacheGet
  have hfind : (c.filter (fun p => decide (p.2.userId ≠ uid))).find?
      (fun p => decide (p.1 = k)) = none := by
    rw [List.find?_eq_none]
    intro p hp
    rw [List.mem_filter] at hp
    simp only [decide_eq_true_eq]
    exact h p hp.1
  rw [hfind]
  rfl

/-- C5: after `regenerateApiKey(u)` the verification cache holds no entry
resolving to `u`, the stored hash is the hash of the fresh key (the old
hash is gone), the previously issued plaintext key no longer authenticates
through `getUserByApiKey`, and the returned fresh key authenticates as
`u`.  The hypotheses are the contract of the password primitive plus
freshness of the new key and the cache-coherence invariant for the old
one. -/
theorem c5_regenerate (verifyFn : String → String → Bool) (hashFn : String → String)
    (st : DBState) (u : User) (oldKey newKey : String) (ttl now1 now2 : Nat)
    (hu : u ∈ st.users)
    (hok : verifyFn newKey (hashFn newKey) = true)
    (hold_new : verifyFn oldKey (hashFn newKey) = false)
    (hnew_others : ∀ w ∈ st.users, ∀ hs, w.mcp_api_key = some hs → w.id ≠ u.id →
        verifyFn newKey hs = false)
    (hold_others : ∀ w ∈ st.users, ∀ hs, w.mcp_api_key = some hs → w.id ≠ u.id →
        verifyFn oldKey hs = false)
    (hcache_old : ∀ p ∈ st.apiKeyCache, p.1 = oldKey → p.2.userId = u.id)
    (hcache_new : ∀ p ∈ st.apiKeyCache, p.1 ≠ newKey) :
    (regenerateApiKey hashFn st u.id newKey).1 = newKey
      ∧ (∀ p ∈ (regenerateApiKey hashFn st u.id newKey).2.apiKeyCache, p.2.userId ≠ u.id)
      ∧ (∀ w ∈ (regenerateApiKey hashFn st u.id newKey).2.users, w.id = u.id →
          w.mcp_api_key = some (hashFn newKey))
      ∧ (getUserByApiKey verifyFn ttl (regenerateApiKey hashFn st u.id newKey).2
          now1 oldKey).1 = none
      ∧ (∃ w, (getUserByApiKey verifyFn ttl (regenerateApiKey hashFn st u.id newKey).2
          now2 newKey).1 = some w ∧ w.id = u.id) := by
  have husers : (regenerateApiKey hashFn st u.id newKey).2.users
      = st.users.map (fun w => if w.id = u.id
          then { w with mcp_api_key := some (hashFn newKey) } else w) := rfl
  have hcache : (regenerateApiKey hashFn st u.id newKey).2.apiKeyCache
      = st.apiKeyCache.filter (fun p => decide (p.2.userId ≠ u.id)) := rfl
  have hmap_fail_old : ∀ w ∈ (regenerateApiKey hashFn st u.id newKey).2.users,
      ∀ hs, w.mcp_api_key = some hs → verifyFn oldKey hs = false := by
    rw [husers]
    intro w hw hs hkey
    rw [List.mem_map] at hw
    obtain ⟨w0, hw0, hfw0⟩ := hw
    by_cases hid : w0.id = u.id
    · rw [if_pos hid] at hfw0
      rw [← hfw0] at hkey
      simp only at hkey
      injection hkey with hkey
      rw [← hkey]
      exact hold_new
    · rw [if_neg hid] at hfw0
      rw [← hfw0] at hkey
      exact hold_others w0 hw0 hs hkey hid
  refine ⟨rfl, ?_, ?_, ?_, ?_⟩
  · intro p hp
    rw [hcache] at hp
    rw [List.mem_filter] at hp
    simpa using hp.2
  · intro w hw hid
    rw [husers] at hw
    rw [List.mem_map] at hw
    obtain ⟨w0, hw0, hfw0⟩ := hw
    by_cases h0 : w0.id = u.id
    · rw [if_pos h0] at hfw0
      rw [← hfw0]
    · rw [if_neg h0] at hfw0
      rw [← hfw0] at hid
      exact absurd hid h0
  · have hget : cacheGet (regenerateApiKey hashFn st u.id newKey).2.apiKeyCache oldKey
        = none := by
      rw [hcache]
      exact cacheGet_filter_user_none st.apiKeyCache oldKey u.id hcache_old
    have hscan : (scanVerify verifyFn oldKey
        (regenerateApiKey hashFn st u.id newKey).2.users).1 = none :=
      scanVerify_none verifyFn oldKey _ hmap_fail_old
    simp only [getUserByApiKey, hget, hscan]
  · have hget : cacheGet (regenerateApiKey hashFn st u.id newKey).2.apiKeyCache newKey
        = none := by
      rw [hcache]
      exact cacheGet_filter_absent_none st.apiKeyCache newKey u.id hcache_new
    have hex : ∃ w ∈ (regenerateApiKey hashFn st u.id newKey).2.users,
        ∃ hs, w.mcp_api_key = some hs ∧ verifyFn newKey hs = true := by
      rw [husers]
      refine ⟨{ u with mcp_api_key := some (hashFn newKey) }, ?_, hashFn newKey, rfl, hok⟩
      have := List.mem_map_of_mem (fun w => if w.id = u.id
        then { w with mcp_api_key := some (hashFn newKey) } else w) hu
      simpa using this
    obtain ⟨w, hweq, hwmem, hs, hkey, hv⟩ := scanVerify_found verifyFn newKey _ hex
    have hwid : w.id = u.id := by
      rw [husers] at hwmem
      rw [List.mem_map] at hwmem
      obtain ⟨w0, hw0, hfw0⟩ := hwmem
      by_cases h0 : w0.id = u.id
      · rw [if_pos h0] at hfw0
        rw [← hfw0]
        exact h0
      · rw [if_neg h0] at hfw0
        subst hfw0
        rw [hnew_others w0 hw0 hs hkey h0] at hv
        exact absurd hv Bool.false_ne_true
    refine ⟨w, ?_, hwid⟩
    simp only [getUserByApiKey, hget, hweq]

theorem c5_witness :
    (regenerateApiKey wHashFn5 wDb5 wUser4.id "nk").1 = "nk"
      ∧ (∀ p ∈ (regenerateApiKey wHashFn5 wDb5 wUser4.id "nk").2.apiKeyCache,
          p.2.userId ≠ wUser4.id)
      ∧ (∀ w ∈ (regenerateApiKey wHashFn5 wDb5 wUser4.id "nk").2.users,
          w.id = wUser4.id → w.mcp_api_key = some (wHashFn5 "nk"))
      ∧ (getUserByApiKey wVerify5 CACHE_TTL
          (regenerateApiKey wHashFn5 wDb5 wUser4.id "nk").2 10 "ok").1 = none
      ∧ (∃ w, (getUserByApiKey wVerify5 CACHE_TTL
          (regenerateApiKey wHashFn5 wDb5 wUser4.id "nk").2 10 "nk").1 = some w
          ∧ w.id = wUser4.id) := by
  have hnew : ∀ w ∈ wDb5.users, ∀ hs, w.mcp_api_key = some hs → w.id ≠ wUser4.id →
      wVerify5 "nk" hs = false := by
    intro w hw hs hkey hid
    rcases List.mem_cons.mp hw with h1 | h1
    · subst h1
      exact absurd rfl hid
    · rcases List.mem_cons.mp h1 with h2 | h2
      · subst h2
        injection hkey with he
        rw [← he]
        decide
      · simp at h2
  have hold : ∀ w ∈ wDb5.users, ∀ hs, w.mcp_api_key = some hs → w.id ≠ wUser4.id →
      wVerify5 "ok" hs = false := by
    intro w hw hs hkey hid
    rcases List.mem_cons.mp hw with h1 | h1
    · subst h1
      exact absurd rfl hid
    · rcases List.mem_cons.mp h1 with h2 | h2
      · subst h2
        injection hkey with he
        rw [← he]
        decide
      · simp at h2
  have h := c5_regenerate wVerify5 wHashFn5 wDb5 wUser4 "ok" "nk" CACHE_TTL 10 10
    (by decide) (by decide) (by decide) hnew hold (by decide) (by decide)
  exact ⟨h.1, h.2.1, h.2.2.1, h.2.2.2.1, h.2.2.2.2⟩

end CanvasMcp
